import Mathlib

/-!
Verification of the Automerge replication substrate (HerbCaudill/automerge).

The development shallowly embeds:
* the backend API of `src/automerge.ts` (`applyChanges`, `applyLocalChange`,
  `save`, `load`, `merge`, `getAllChanges`, `getHeads`);
* the OpSet / history-DAG engine and the columnar codec, which are not part of
  the source tree given (only their callers are): these are modelled from the
  specification (sections 4.1, 4.2 and 6), as indicated by doc comments;
* the clock-based `Connection` sync layer of `src/connection.js`.

Change hashes are SHA-256 digests of the canonical encoding in the source.  In
the model a hash-assignment function `hfn : Change → Hash` is passed explicitly
(standing for SHA-256 composed with the canonical encoding), and collision
freedom is a hypothesis on the change sets considered.  Hashes are natural
numbers: the byte-lexicographic order of fixed-width lowercase hex renderings
coincides with the numeric order, so sorting hashes numerically models the
byte-lexicographic sort that the source performs on hex strings.
-/

namespace Automerge

/-- A change hash (stands for a SHA-256 digest, see file comment). -/
abbrev Hash := Nat

/-- Lamport-style operation identifier `counter@actor` (spec section 3). -/
structure OpId where
  ctr : Nat
  actor : String
deriving DecidableEq, Repr

/-- OpIds are ordered by counter ascending, ties broken by the
byte-lexicographic order of the actor string (spec section 3). -/
instance : LinearOrder OpId :=
  LinearOrder.lift' (fun o => toLex (o.ctr, o.actor))
    (fun a b h => by
      cases a; cases b
      simpa [Prod.ext_iff] using congrArg ofLex h)

/-- Operation actions (spec section 3). -/
inductive Action where
  | set | del | inc | makeMap | makeList | makeText | makeTable
deriving DecidableEq, Repr

/-- Primitive value domain (spec section 9: tagged union; floats are not used
by any claim and are omitted). -/
inductive Value where
  | null
  | bool (b : Bool)
  | int (n : Int)
  | str (s : String)
deriving DecidableEq, Repr

/-- Optional datatype annotation of a value (spec section 3). -/
inductive Datatype where
  | plain | counter | timestamp
deriving DecidableEq, Repr

/-- A key inside an object: a map key string, a list element id, or the head
sentinel of a list (spec section 3). -/
inductive Key where
  | str (s : String)
  | elem (e : OpId)
  | head
deriving DecidableEq, Repr

/-- A single operation (spec section 3).  `obj` is the OpId of the target
object, `key` the map key or (for list operations) the reference element id,
`pred` the set of OpIds this op overrides. -/
structure Op where
  action : Action
  obj : OpId
  key : Key
  insert : Bool
  id : OpId
  pred : Finset OpId
  value : Value
  datatype : Datatype
deriving DecidableEq

/-- A change: a batch of ops with actor, sequence number and dependency hashes
(spec section 3). -/
structure Change where
  actor : String
  seq : Nat
  startOp : Nat
  time : Int
  message : String
  deps : List Hash
  ops : List Op
deriving DecidableEq

/-- The key at which an op contributes or removes assignments: insertion ops
create the element named by their own id, all other ops address `key`
(spec section 4.2). -/
def Op.dest (o : Op) : OpId × Key :=
  (o.obj, if o.insert then Key.elem o.id else o.key)

/-- An op contributes an assignment unless it is a `del` or an `inc`
(spec section 4.2, "add this op if it is not a del"). -/
def Op.contributes (o : Op) : Prop :=
  o.action ≠ Action.del ∧ o.action ≠ Action.inc

instance (o : Op) : Decidable o.contributes := by
  unfold Op.contributes; infer_instance

/-- An op updates the list-element tree when it is an insertion
(spec section 4.2). -/
def Op.isInsert (o : Op) : Prop :=
  o.insert = true ∧ o.action ≠ Action.del ∧ o.action ≠ Action.inc

instance (o : Op) : Decidable o.isInsert := by
  unfold Op.isInsert; infer_instance

/-- Insert an element into a list kept sorted in strictly descending OpId
order.  Modelled from the spec (section 4.2): "among elements inserted with
the same predecessor, order by OpId descending". -/
def insertDesc (a : OpId) : List OpId → List OpId
  | [] => [a]
  | b :: l => if b > a then b :: insertDesc a l else a :: b :: l

/-- Modelled from the spec: the OpSet / state-engine state (sections 4.1 and
4.2); the engine itself (`backend/op_set.js`) is not among the given sources.
* `hashes`, `byHash`: the hash-keyed mapping of applied changes (section 4.1);
* `statesByActor`: per-actor ordered list of applied change hashes (the
  `opSet.states` map read by `applyLocalChange` in `src/automerge.ts`);
* `assigns`: per (object, key) set of concurrently-active assignments
  (section 4.2);
* `opById`: lookup of an applied op by its OpId;
* `incs`: applied `inc` ops, attached to counters via their `pred` sets;
* `following`: per (object, reference key) children of the list-element tree,
  kept in descending OpId order (the RGA rule of section 4.2);
* `queue`: changes parked until their dependencies arrive (section 4.1). -/
@[ext]
structure OpSetState where
  hashes : Finset Hash
  byHash : Hash → Option Change
  statesByActor : String → List Hash
  assigns : OpId × Key → Finset OpId
  opById : OpId → Option Op
  incs : Finset Op
  following : OpId × Key → List OpId
  queue : List Change

/-- Modelled from the spec: applying a single op to the per-object CRDT state
(section 4.2, "Applying an op"): remove the assignments named in `pred` from
the active set of the target key, add the op itself if it is not a `del`,
attach `inc` ops to their counters, and place insertions into the element
tree in descending OpId order. -/
def applyOp (s : OpSetState) (o : Op) : OpSetState :=
  let withOp := { s with opById := fun i => if i = o.id then some o else s.opById i }
  if o.action = Action.inc then { withOp with incs := insert o s.incs }
  else if o.action = Action.del then
    { withOp with
      assigns := fun k => if k = o.dest then s.assigns k \ o.pred else s.assigns k }
  else
    let s₁ :=
      { withOp with
        assigns := fun k =>
          if k = o.dest then insert o.id (s.assigns k \ o.pred) else s.assigns k }
    if o.insert then
      { s₁ with
        following := fun k =>
          if k = (o.obj, o.key) then insertDesc o.id (s.following k) else s.following k }
    else s₁

/-- Modelled from the spec: absorbing a change whose dependencies are all
satisfied (sections 4.1 and 4.2): record its hash, append it to its actor's
state list, and apply its ops in the order given in the change. -/
def applyReady (hfn : Change → Hash) (s : OpSetState) (c : Change) : OpSetState :=
  let s₁ :=
    { s with
      hashes := insert (hfn c) s.hashes
      byHash := fun h => if h = hfn c then some c else s.byHash h
      statesByActor := fun a =>
        if a = c.actor then s.statesByActor a ++ [hfn c] else s.statesByActor a }
  c.ops.foldl applyOp s₁

/-- Whether all dependency hashes of a change are already applied. -/
def depsSatisfied (s : OpSetState) (c : Change) : Bool :=
  c.deps.all (fun d => decide (d ∈ s.hashes))

/-- Extract the first element of a list satisfying `p`, together with the
remaining elements. -/
def extractFirst (p : Change → Bool) : List Change → Option (Change × List Change)
  | [] => none
  | c :: l =>
      if p c then some (c, l)
      else match extractFirst p l with
        | none => none
        | some (c', l') => some (c', c :: l')

/-- Modelled from the spec: when a dependency arrives, promote any parked
changes whose dep sets are now satisfied (section 4.1, "reactivate"); fails
with `InvalidSequence` when a promoted change's seq is not the next expected
for its actor (section 4.1). -/
def flushQueue (hfn : Change → Hash) : Nat → OpSetState → Except String OpSetState
  | 0, s => Except.ok s
  | n + 1, s =>
      match extractFirst (depsSatisfied s) s.queue with
      | none => Except.ok s
      | some (c, rest) =>
          let s₁ := { s with queue := rest }
          if hfn c ∈ s₁.hashes then flushQueue hfn n s₁
          else if c.seq ≠ (s₁.statesByActor c.actor).length + 1 then
            Except.error "InvalidSequence"
          else flushQueue hfn n (applyReady hfn s₁ c)

/-- Modelled from the spec: inserting one change into the history DAG
(section 4.1, "insert(change)"): if the hash is already known this is a no-op;
if any dep is unknown the change is parked; if its seq is not the next
expected for its actor the insertion fails with `InvalidSequence`; otherwise
the change is absorbed and parked changes are reactivated. -/
def addChange (hfn : Change → Hash) (s : OpSetState) (c : Change) :
    Except String OpSetState :=
  if hfn c ∈ s.hashes then Except.ok s
  else if ¬ depsSatisfied s c then Except.ok { s with queue := s.queue ++ [c] }
  else if c.seq ≠ (s.statesByActor c.actor).length + 1 then
    Except.error "InvalidSequence"
  else flushQueue hfn s.queue.length (applyReady hfn s c)

/-- The empty OpSet state. -/
def initState : OpSetState where
  hashes := ∅
  byHash := fun _ => none
  statesByActor := fun _ => []
  assigns := fun _ => ∅
  opById := fun _ => none
  incs := ∅
  following := fun _ => []
  queue := []

/-- Application of a list of changes, left to right (the loop inside `apply`
in `src/automerge.ts`). -/
def addChanges (hfn : Change → Hash) (s : OpSetState) (cs : List Change) :
    Except String OpSetState :=
  cs.foldlM (addChange hfn) s

/-- Whether the applied change with hash `h'` lists `h` among its deps. -/
def hasDep (s : OpSetState) (h' h : Hash) : Bool :=
  match s.byHash h' with
  | some c => decide (h ∈ c.deps)
  | none => false

/-- The current heads: applied hashes on which no other applied change
depends (spec sections 4.1 and glossary; `getHeads` in `src/automerge.ts`). -/
def headsOf (s : OpSetState) : Finset Hash :=
  s.hashes.filter (fun h => ∀ h' ∈ s.hashes, hasDep s h' h = false)

/-- One step of the canonical (topological, ties by hash ascending) ordering
of applied changes: emit the hash-smallest change whose deps are all emitted.
Modelled from the spec (section 6, document encoding: "All changes
concatenated in a canonical order (topological; ties by hash ascending)"). -/
def topoStep (emitted : Finset Hash) (rem : List Change) :
    Option (Change × List Change) :=
  extractFirst (fun c => c.deps.all (fun d => decide (d ∈ emitted))) rem

/-- Fuel-indexed topological emission; `rem` is kept in ascending hash order,
so the first ready change is the hash-smallest one. -/
def topoSort (hfn : Change → Hash) : Nat → Finset Hash → List Change → List Change
  | 0, _, _ => []
  | n + 1, emitted, rem =>
      match topoStep emitted rem with
      | none => []
      | some (c, rest) => c :: topoSort hfn n (insert (hfn c) emitted) rest

/-- The applied changes of a state, as a list in ascending hash order. -/
def changesByHash (s : OpSetState) : List Change :=
  (Finset.sort (· ≤ ·) s.hashes).filterMap s.byHash

/-- All changes of a backend state in the canonical order (topological, ties
by hash ascending).  `getAllChanges` in `src/automerge.ts` returns every
applied change; its canonical order is modelled from the spec (section 6). -/
def getAllChanges (hfn : Change → Hash) (s : OpSetState) : List Change :=
  topoSort hfn (changesByHash s).length ∅ (changesByHash s)

/-- The binary document encoding.  Modelled from the spec: the columnar codec
(`backend/columnar.js`) is not among the given sources and is specified only
by its round-trip contract (sections 1 and 6), so the encoded document is
represented by the canonical change sequence itself, making
`decode (encode cs) = cs` hold by construction. -/
structure BinaryDocument where
  chunks : List Change
deriving DecidableEq

/-- `save` from `src/automerge.ts`: encode all changes, in canonical order,
as a document chunk. -/
def save (hfn : Change → Hash) (s : OpSetState) : BinaryDocument :=
  ⟨getAllChanges hfn s⟩

/-- `load` from `src/automerge.ts`: decode the change history contained in
the document chunk and re-apply it to an empty backend. -/
def load (hfn : Change → Hash) (data : BinaryDocument) : Except String OpSetState :=
  addChanges hfn initState data.chunks

/-- A frontend document handle: an actor id plus the backend state
(`Frontend.getActorId` and `Frontend.getBackendState` in the source). -/
structure Doc where
  actorId : String
  state : OpSetState

/-- `applyChanges` from `src/automerge.ts` at the document level: apply the
changes to the backend state of the document. -/
def applyChangesD (hfn : Change → Hash) (doc : Doc) (cs : List Change) :
    Except String Doc :=
  (addChanges hfn doc.state cs).map (fun s => { doc with state := s })

/-- `merge` from `src/automerge.ts`: refuse to merge a document with itself
(same actor id), otherwise copy all changes from the remote document; any
duplicates are ignored. -/
def merge (hfn : Change → Hash) (localDoc remoteDoc : Doc) : Except String Doc :=
  if localDoc.actorId = remoteDoc.actorId then
    Except.error "Cannot merge an actor with itself"
  else
    applyChangesD hfn localDoc (getAllChanges hfn remoteDoc.state)

/-- `applyLocalChange` from `src/automerge.ts`: reject a change whose seq has
already been applied for its actor; for `seq > 1` add the hash of the local
actor's previous change to the deps and sort them (byte-lexicographically on
the hex rendering, i.e. numerically here); then encode and apply.  Returns
the updated state together with the change that was encoded and hashed. -/
def applyLocalChange (hfn : Change → Hash) (s : OpSetState) (c : Change) :
    Except String (OpSetState × Change) :=
  if c.seq ≤ (s.statesByActor c.actor).length then
    Except.error "Change request has already been applied"
  else
    let next : Except String Change :=
      if 1 < c.seq then
        match (s.statesByActor c.actor)[c.seq - 2]? with
        | none => Except.error "Cannot find hash of localChange before seq"
        | some lastHash =>
            Except.ok { c with
              deps := List.insertionSort (· ≤ ·) ((lastHash :: c.deps).dedup) }
      else Except.ok c
    match next with
    | Except.error e => Except.error e
    | Except.ok c' =>
        match addChange hfn s c' with
        | Except.error e => Except.error e
        | Except.ok s' => Except.ok (s', c')

/-- The sum of all increments attached to the counter assignment `m`
(spec section 4.2: "reading sums the initial value and all applicable
increments"). -/
def incTotal (s : OpSetState) (m : OpId) : Int :=
  (s.incs.filter (fun o => m ∈ o.pred)).sum
    (fun o => match o.value with | Value.int n => n | _ => 0)

/-- The user-visible value at a key: the greatest-OpId active assignment,
with counters summing their increments (spec sections 4.2 and "Conflicts"). -/
def observableAt (s : OpSetState) (k : OpId × Key) : Option Value :=
  match (s.assigns k).max with
  | none => none
  | some m =>
      match s.opById m with
      | none => none
      | some o =>
          if o.datatype = Datatype.counter then
            match o.value with
            | Value.int n => some (Value.int (n + incTotal s m))
            | v => some v
          else some o.value

/-- The user-visible order of a list object: depth-first traversal of the
element tree, children in descending OpId order (spec section 4.2). -/
def listOrder (f : OpId × Key → List OpId) (obj : OpId) : Nat → Key → List OpId
  | 0, _ => []
  | n + 1, k => (f (obj, k)).flatMap (fun e => e :: listOrder f obj n (Key.elem e))

/-- The observable document: the projection of every key of every object to
its visible value, together with the element order of every list. -/
def observableDoc (s : OpSetState) :
    ((OpId × Key) → Option Value) × (OpId → Nat → List OpId) :=
  (observableAt s, fun obj n => listOrder s.following obj n Key.head)

/-- The change produced (encoded and hashed) by a successful
`applyLocalChange`, with the deps rewritten by the backend. -/
def localChangeResult (hfn : Change → Hash) (s : OpSetState) (c : Change) :
    Option Change :=
  (applyLocalChange hfn s c).toOption.map (fun r => r.2)

/-- All ops of a change list, in order (spec section 4.2: within one change,
the order given in the change). -/
def opsOf (l : List Change) : List Op :=
  l.flatMap Change.ops

/-- A sequence of changes respects the dependency order when every dep hash
of each change occurs among the changes before it (on top of the hashes in
`seen`).  This is the premise "permutations respect deps" of the spec
(section 8, Determinism). -/
def depsOK (hfn : Change → Hash) : Finset Hash → List Change → Prop
  | _, [] => True
  | seen, c :: l => (∀ d ∈ c.deps, d ∈ seen) ∧ depsOK hfn (insert (hfn c) seen) l

instance depsOKDecidable (hfn : Change → Hash) :
    ∀ (seen : Finset Hash) (l : List Change), Decidable (depsOK hfn seen l)
  | _, [] => Decidable.isTrue trivial
  | seen, c :: l =>
      haveI := depsOKDecidable hfn (insert (hfn c) seen) l
      inferInstanceAs (Decidable (_ ∧ _))

/-- Fuel-bounded causal ancestry between changes: `c` is an ancestor of `c'`
when `hash c` is reachable from the deps of `c'` through the change set `l`
(spec section 3: deps assert happens-before). -/
def ancB (hfn : Change → Hash) (l : List Change) : Nat → Change → Change → Bool
  | 0, _, _ => false
  | n + 1, c, c' =>
      decide (hfn c ∈ c'.deps) ||
      l.any (fun m => decide (hfn m ∈ c'.deps) && ancB hfn l n c m)

/-- The op ids contributed by the causal ancestors of `c'` within `l`. -/
def ancOpIds (hfn : Change → Hash) (l : List Change) (c' : Change) : List OpId :=
  (l.filter (fun c => ancB hfn l l.length c c')).flatMap (fun c => c.ops.map Op.id)

/-- Each op's `pred` set only names op ids among `avail` or the ids of
earlier ops of the same batch (spec section 3: `pred` lists visible OpIds at
the time the op was created, hence ops in the causal past). -/
def predSeqOps (avail : List OpId) : List Op → Bool
  | [] => true
  | o :: l => decide (∀ p ∈ o.pred, p ∈ avail) && predSeqOps (avail ++ [o.id]) l

/-- Every op's predecessors lie in the causal past of its change
(spec section 3, invariant on `pred`). -/
def predsCausal (hfn : Change → Hash) (l : List Change) : Prop :=
  ∀ c' ∈ l, predSeqOps (ancOpIds hfn l c') c'.ops = true

instance (hfn : Change → Hash) (l : List Change) : Decidable (predsCausal hfn l) := by
  unfold predsCausal; infer_instance

/-- Validity of a set of changes (spec section 3, invariants): distinct
hashes (SHA-256 collision freedom), globally unique op ids, sequence numbers
starting at 1 with a dep on the same actor's previous change, at most one
change per (actor, seq), and causal `pred` sets.  All conditions depend only
on the members of the list, not on their order. -/
def ValidSet (hfn : Change → Hash) (l : List Change) : Prop :=
  (l.map hfn).Nodup ∧
  ((opsOf l).map Op.id).Nodup ∧
  (∀ c ∈ l, 1 ≤ c.seq) ∧
  (∀ c ∈ l, ∀ c' ∈ l, c.actor = c'.actor → c.seq = c'.seq → c = c') ∧
  (∀ c ∈ l, 1 < c.seq →
    ∃ c' ∈ l, c'.actor = c.actor ∧ c'.seq = c.seq - 1 ∧ hfn c' ∈ c.deps) ∧
  predsCausal hfn l

instance (hfn : Change → Hash) (l : List Change) : Decidable (ValidSet hfn l) := by
  unfold ValidSet; infer_instance

/-- `o'` removes the assignment of `o` from its active set: same target key,
`o.id` among the predecessors of `o'`, and `o'` is not an `inc`
(spec section 4.2, "remove assignments named in pred"). -/
def kills (o' o : Op) : Prop :=
  o'.action ≠ Action.inc ∧ o'.dest = o.dest ∧ o.id ∈ o'.pred

instance (o' o : Op) : Decidable (kills o' o) := by
  unfold kills; infer_instance

/-- The assignment of `o` has been overridden by some op of `S`. -/
def killedIn (S : Finset Op) (o : Op) : Prop :=
  ∃ o' ∈ S, kills o' o

instance (S : Finset Op) (o : Op) : Decidable (killedIn S o) := by
  unfold killedIn; infer_instance

/-- The canonical active assignment set of a key: contributing ops at that
key that no op of the set overrides. -/
def canonAssigns (S : Finset Op) (k : OpId × Key) : Finset OpId :=
  (S.filter (fun o => o.dest = k ∧ o.contributes ∧ ¬ killedIn S o)).image Op.id

/-- The canonical op lookup: the unique op of the list with the given id. -/
def canonOpById (L : List Op) (i : OpId) : Option Op :=
  L.find? (fun o => o.id = i)

/-- The canonical set of applied `inc` ops. -/
def canonIncs (S : Finset Op) : Finset Op :=
  S.filter (fun o => o.action = Action.inc)

/-- The children inserted under a given reference key of a list object. -/
def children (S : Finset Op) (k : OpId × Key) : Finset OpId :=
  (S.filter (fun o => o.isInsert ∧ (o.obj, o.key) = k)).image Op.id

/-- A finite set of OpIds as a list in strictly descending order. -/
def sortDesc (s : Finset OpId) : List OpId :=
  (Finset.sort (· ≤ ·) s).reverse

/-- The canonical element tree: children of each reference in descending
OpId order (the RGA rule, spec section 4.2). -/
def canonFollowing (S : Finset Op) (k : OpId × Key) : List OpId :=
  sortDesc (children S k)

/-- The (seq, hash) pairs of one actor's changes, ordered lexicographically
(which, for a valid set, is seq order). -/
def actorPairs (hfn : Change → Hash) (l : List Change) (a : String) :
    Finset (Lex (Nat × Nat)) :=
  ((l.filter (fun c => c.actor = a)).map (fun c => toLex (c.seq, hfn c))).toFinset

/-- The canonical per-actor hash list: hashes of the actor's changes in seq
order. -/
def actorHashes (hfn : Change → Hash) (l : List Change) (a : String) : List Hash :=
  (Finset.sort (· ≤ ·) (actorPairs hfn l a)).map (fun p => (ofLex p).2)

/-- The canonical OpSet state determined by a set of applied changes; every
component is a function of the set alone (invariant under permutation). -/
def canonState (hfn : Change → Hash) (l : List Change) : OpSetState where
  hashes := (l.map hfn).toFinset
  byHash := fun h => l.find? (fun c => hfn c = h)
  statesByActor := actorHashes hfn l
  assigns := canonAssigns (opsOf l).toFinset
  opById := canonOpById (opsOf l)
  incs := canonIncs (opsOf l).toFinset
  following := canonFollowing (opsOf l).toFinset
  queue := []

/-- Every op's `pred` set names only ids of ops occurring strictly earlier
in the sequence. -/
def PointsBack (L : List Op) : Prop :=
  ∀ L₁ o L₂, L = L₁ ++ o :: L₂ → ∀ p ∈ o.pred, p ∈ L₁.map Op.id

/-- `c` occurs strictly before `c'` in the list `l`. -/
def Before (l : List Change) (c c' : Change) : Prop :=
  ∃ P R, l = P ++ c' :: R ∧ c ∈ P

instance : IsAntisymm OpId (· > ·) :=
  ⟨fun _ _ h₁ h₂ => absurd h₁ (asymm h₂)⟩

/-- The four per-object CRDT components of a state agree with the canonical
value determined by the (unordered) set of applied ops. -/
def OpsFieldsCanon (L : List Op) (s : OpSetState) : Prop :=
  s.assigns = canonAssigns L.toFinset ∧
  s.opById = canonOpById L ∧
  s.incs = canonIncs L.toFinset ∧
  s.following = fun k => canonFollowing L.toFinset k

/-- The root object id used by the concrete example history. -/
def exRoot : OpId := ⟨0, ""⟩

/-- An example map assignment op by actor `a` at key `k` with value `v`. -/
def exOp (a : String) (k : String) (v : Int) : Op where
  action := Action.set
  obj := exRoot
  key := Key.str k
  insert := false
  id := ⟨1, a⟩
  pred := ∅
  value := Value.int v
  datatype := Datatype.plain

/-- An example first change by actor `a`, assigning `v` at map key `k`. -/
def exChange (a : String) (k : String) (v : Int) : Change where
  actor := a
  seq := 1
  startOp := 1
  time := 0
  message := ""
  deps := []
  ops := [exOp a k v]

/-- A hash function that is collision-free on the example changes (which
have distinct actors). -/
def exHash : Change → Hash := fun c => if c.actor = "a" then 1 else 2

end Automerge

namespace Conn

/-- A document identifier in the DocSet (`src/connection.js`). -/
abbrev DocId := String

/-- A vector clock: association list from actor (node) id to highest known
sequence number, mirroring the Immutable.js `Map` of the source. -/
abbrev Clock := List (String × Nat)

/-- Clock lookup with default 0 (`clock.get(key, 0)` in `src/common.js`). -/
def getSeq (cl : Clock) (k : String) : Nat :=
  match cl.find? (fun p => p.1 = k) with
  | some p => p.2
  | none => 0

/-- `lessOrEqual` from `src/common.js` (modelled from its use in
`src/connection.js`): every entry of either clock satisfies
`clock1.get(key, 0) <= clock2.get(key, 0)`. -/
def lessOrEqual (c₁ c₂ : Clock) : Bool :=
  (c₁.map Prod.fst ++ c₂.map Prod.fst).all (fun k => getSeq c₁ k ≤ getSeq c₂ k)

/-- `largestWins` from `src/connection.js` line 149: the clock-merge
resolver keeping the maximum sequence number. -/
def largestWins (x y : Nat) : Nat :=
  max x y

/-- `oldClock.mergeWith(largestWins, clock)`: pointwise maximum over the
union of the keys. -/
def mergeClocks (old new : Clock) : Clock :=
  ((old.map Prod.fst ++ new.map Prod.fst).dedup).map
    (fun k => (k, largestWins (getSeq old k) (getSeq new k)))

/-- A change as carried by sync messages; only its actor and seq are
inspected by the Connection layer, so the op payload is elided. -/
structure CChange where
  actor : String
  seq : Nat
deriving DecidableEq, Repr

/-- Modelled from the spec: a document held in a DocSet, exposing the
backend's vector clock (`opSet.clock`) and its change log (sections 4.4 and
2); `clock = none` models a snapshot without an opSet clock. -/
structure DocState where
  clock : Option Clock
  changes : List CChange
deriving DecidableEq, Repr

/-- Modelled from the spec: `Backend.getMissingChanges(state, theirClock)`
(not among the given sources) returns everything more recent than
`theirClock` (comment in `src/connection.js` lines 19-21). -/
def getMissingChanges (d : DocState) (theirClock : Clock) : List CChange :=
  d.changes.filter (fun ch => getSeq theirClock ch.actor < ch.seq)

/-- A sync message: `{docId, clock, changes}` (`src/connection.js`).
`clock = some []` is the empty clock `{}` of a document request. -/
structure Msg where
  docId : DocId
  clock : Option Clock
  changes : Option (List CChange)
deriving DecidableEq, Repr

/-- The two clock maps of a Connection (`OURS` / `THEIRS`). -/
inductive Which where
  | ours | theirs
deriving DecidableEq, Repr

/-- The mutable state of a Connection: `clockMap[OURS]` (total, defaulting
to the empty clock) and `clockMap[THEIRS]` (absent until the peer is
heard from). -/
structure ConnState where
  ours : DocId → Clock
  theirs : DocId → Option Clock

/-- The initial Connection state: both clock maps empty. -/
def initConn : ConnState where
  ours := fun _ => []
  theirs := fun _ => none

/-- A DocSet: a mapping from docId to the current document, if any. -/
abbrev DocSet := DocId → Option DocState

/-- `updateClock` for a single clock map (`src/connection.js` lines
120-132): merge the new clock into the recorded one, keeping the maximum
sequence number for each node. -/
def updateClock1 (w : Which) (conn : ConnState) (docId : DocId) (cl : Clock) :
    ConnState :=
  match w with
  | Which.ours =>
      { conn with
        ours := fun d => if d = docId then mergeClocks (conn.ours docId) cl else conn.ours d }
  | Which.theirs =>
      { conn with
        theirs := fun d =>
          if d = docId then some (mergeClocks ((conn.theirs docId).getD []) cl)
          else conn.theirs d }

/-- `updateClock(which, docId, clock)`: update each clock map named in
`which`. -/
def updateClock (ws : List Which) (conn : ConnState) (docId : DocId) (cl : Clock) :
    ConnState :=
  ws.foldl (fun c w => updateClock1 w c docId cl) conn

/-- The document's own vector clock, when the doc exists and is a live
automerge object (`this.clock(docId)` reading `opSet.clock`). -/
def docClock (ds : DocSet) (docId : DocId) : Option Clock :=
  match ds docId with
  | some d => d.clock
  | none => none

/-- `maybeSendChanges` (`src/connection.js` lines 84-94): if no clock has
been recorded for the peer, return without sending; otherwise send the
changes the peer is missing, when there are any. -/
def maybeSendChanges (conn : ConnState) (ds : DocSet) (docId : DocId) :
    ConnState × List Msg :=
  match conn.theirs docId with
  | none => (conn, [])
  | some theirClock =>
      match ds docId with
      | none => (conn, [])
      | some d =>
          let changes := getMissingChanges d theirClock
          if changes.length > 0 then
            let cl := d.clock.getD []
            (updateClock [Which.ours, Which.theirs] conn docId cl,
             [{ docId := docId, clock := some cl, changes := some changes }])
          else (conn, [])

/-- `maybeRequestChanges` (`src/connection.js` lines 102-108): if the
document is newer than what we have advertised, send a request message. -/
def maybeRequestChanges (conn : ConnState) (ds : DocSet) (docId : DocId) :
    ConnState × List Msg :=
  match docClock ds docId with
  | none => (conn, [])
  | some cl =>
      if lessOrEqual cl (conn.ours docId) then (conn, [])
      else (conn, [{ docId := docId, clock := some cl, changes := none }])

/-- `requestDoc` (`src/connection.js` lines 115-118): a message with a
docId and an empty clock is a request for a document. -/
def requestDoc (docId : DocId) : Msg :=
  { docId := docId, clock := some [], changes := none }

/-- The `ERR_OLDCLOCK` message (`src/connection.js` line 151). -/
def errOldClock : String :=
  "Cannot pass an old state object to a connection"

/-- The `ERR_NOCLOCK` message (`src/connection.js` lines 152-154). -/
def errNoClock : String :=
  "This object cannot be used for network sync. Are you trying to sync a snapshot from the history?"

/-- `docChanged` (`src/connection.js` lines 54-67): the docSet callback.
Throws `ERR_NOCLOCK` if the doc has no clock, throws `ERR_OLDCLOCK` if the
doc is not at least as new as what we already advertised; otherwise sends
and requests changes as needed and records the doc's clock under `ours`. -/
def docChanged (conn : ConnState) (ds : DocSet) (docId : DocId) :
    Except String (ConnState × List Msg) :=
  match ds docId with
  | none => Except.error "TypeError: no document"
  | some d =>
      match d.clock with
      | none => Except.error errNoClock
      | some cl =>
          if lessOrEqual (conn.ours docId) cl then
            let (c₁, msgs₁) := maybeSendChanges conn ds docId
            let (c₂, msgs₂) := maybeRequestChanges c₁ ds docId
            Except.ok (updateClock [Which.ours] c₂ docId cl, msgs₁ ++ msgs₂)
          else Except.error errOldClock

/-- Modelled from the spec: `docSet.applyChanges` (the DocSet is not among
the given sources; section 4.4): absorb the received changes into the
document, growing its clock; handler re-dispatch is not modelled. -/
def applyChangesDS (ds : DocSet) (docId : DocId) (chs : List CChange) : DocSet :=
  let d := (ds docId).getD { clock := some [], changes := [] }
  let newClock := chs.foldl (fun cl ch => mergeClocks cl [(ch.actor, ch.seq)]) (d.clock.getD [])
  fun x =>
    if x = docId then
      some { clock := some newClock, changes := d.changes ++ chs.filter (fun ch => ¬ ch ∈ d.changes) }
    else ds x

/-- `receiveMsg` (`src/connection.js` lines 69-82): record the peer's clock
(merging by maximum), then apply any changes; a message without changes is
treated as a request for our latest changes if we hold the document, and as
an advertisement (answered by a document request) if we do not. -/
def receiveMsg (conn : ConnState) (ds : DocSet) (msg : Msg) :
    ConnState × DocSet × List Msg :=
  let conn₁ :=
    match msg.clock with
    | some cl => updateClock [Which.theirs] conn msg.docId cl
    | none => conn
  let weHaveDoc := (ds msg.docId).isSome
  match msg.changes with
  | some chs => (conn₁, applyChangesDS ds msg.docId chs, [])
  | none =>
      if weHaveDoc then
        let (c₂, msgs) := maybeSendChanges conn₁ ds msg.docId
        (c₂, ds, msgs)
      else
        (conn₁, ds, [requestDoc msg.docId])

/-- `registerDoc` (`src/connection.js` lines 46-51): record the doc's
initial clock and advertise the document (`requestChanges` with the doc's
clock, or the empty clock if the doc has none). -/
def registerDoc (conn : ConnState) (ds : DocSet) (docId : DocId) :
    ConnState × List Msg :=
  let cl := (docClock ds docId).getD []
  (updateClock [Which.ours] conn docId cl,
   [{ docId := docId, clock := some cl, changes := none }])

/-- One externally-triggered Connection transition: a received message, a
docSet change notification (when it does not throw), or a doc
registration. -/
inductive Step : ConnState → ConnState → Prop where
  | recv (conn : ConnState) (ds : DocSet) (msg : Msg) :
      Step conn (receiveMsg conn ds msg).1
  | changed (conn conn' : ConnState) (ds : DocSet) (docId : DocId)
      (msgs : List Msg) (h : docChanged conn ds docId = Except.ok (conn', msgs)) :
      Step conn conn'
  | reg (conn : ConnState) (ds : DocSet) (docId : DocId) :
      Step conn (registerDoc conn ds docId).1

/-- Pointwise comparison of recorded clocks: no recorded sequence number
ever decreases, and no recorded clock disappears. -/
def clockMapLe (c₁ c₂ : ConnState) : Prop :=
  (∀ d k, getSeq (c₁.ours d) k ≤ getSeq (c₂.ours d) k) ∧
  (∀ d cl, c₁.theirs d = some cl →
    ∃ cl', c₂.theirs d = some cl' ∧ ∀ k, getSeq cl k ≤ getSeq cl' k)

theorem find?_self_of_mem {k : String} {ks : List String} (h : k ∈ ks) :
    ks.find? (fun x => x = k) = some k := by
  induction ks with
  | nil => cases h
  | cons a t ih =>
      by_cases hak : a = k
      · subst hak; simp
      · rcases List.mem_cons.mp h with h' | h'
        · exact absurd h'.symm hak
        · simpa [List.find?_cons, hak] using ih h'

theorem getSeq_eq_zero_of_not_mem {cl : Clock} {k : String}
    (h : k ∉ cl.map Prod.fst) : getSeq cl k = 0 := by
  unfold getSeq
  have : cl.find? (fun p => p.1 = k) = none := by
    rw [List.find?_eq_none]
    intro p hp
    simp only [decide_eq_true_eq]
    intro hk
    exact h (List.mem_map.mpr ⟨p, hp, hk⟩)
  rw [this]

theorem find?_map_mk (ks : List String) (f : String → Nat) (k : String) (h : k ∈ ks) :
    (ks.map (fun x => (x, f x))).find? (fun p => p.1 = k) = some (k, f k) := by
  induction ks with
  | nil => cases h
  | cons a t ih =>
      by_cases hak : a = k
      · subst hak; simp
      · rcases List.mem_cons.mp h with h' | h'
        · exact absurd h'.symm hak
        · simpa [List.find?_cons, hak] using ih h'

theorem getSeq_of_find? {cl : Clock} {k : String} {p : String × Nat}
    (h : cl.find? (fun q => q.1 = k) = some p) : getSeq cl k = p.2 := by
  unfold getSeq; rw [h]

theorem getSeq_mergeClocks (old new : Clock) (k : String) :
    getSeq (mergeClocks old new) k = max (getSeq old k) (getSeq new k) := by
  by_cases hk : k ∈ (old.map Prod.fst ++ new.map Prod.fst).dedup
  · have hfind : (mergeClocks old new).find? (fun q => q.1 = k)
        = some (k, largestWins (getSeq old k) (getSeq new k)) := by
      unfold mergeClocks
      exact find?_map_mk ((old.map Prod.fst ++ new.map Prod.fst).dedup)
        (fun k' => largestWins (getSeq old k') (getSeq new k')) k hk
    rw [getSeq_of_find? hfind]
    rfl
  · have h₁ : k ∉ old.map Prod.fst := fun h =>
      hk (List.mem_dedup.mpr (List.mem_append.mpr (Or.inl h)))
    have h₂ : k ∉ new.map Prod.fst := fun h =>
      hk (List.mem_dedup.mpr (List.mem_append.mpr (Or.inr h)))
    have hm : k ∉ (mergeClocks old new).map Prod.fst := by
      intro h
      rcases List.mem_map.mp h with ⟨p, hp, hpk⟩
      unfold mergeClocks at hp
      rcases List.mem_map.mp hp with ⟨k', hk', rfl⟩
      have hkk : k' = k := hpk
      subst hkk
      exact hk hk'
    rw [getSeq_eq_zero_of_not_mem hm, getSeq_eq_zero_of_not_mem h₁,
      getSeq_eq_zero_of_not_mem h₂]
    simp

theorem clockMapLe_refl (c : ConnState) : clockMapLe c c :=
  ⟨fun _ _ => le_refl _, fun d cl h => ⟨cl, h, fun _ => le_refl _⟩⟩

theorem clockMapLe_trans {a b c : ConnState}
    (h₁ : clockMapLe a b) (h₂ : clockMapLe b c) : clockMapLe a c := by
  refine ⟨fun d k => le_trans (h₁.1 d k) (h₂.1 d k), fun d cl h => ?_⟩
  rcases h₁.2 d cl h with ⟨cl', hb, hle⟩
  rcases h₂.2 d cl' hb with ⟨cl'', hc, hle'⟩
  exact ⟨cl'', hc, fun k => le_trans (hle k) (hle' k)⟩

theorem updateClock1_le (w : Which) (conn : ConnState) (docId : DocId) (cl : Clock) :
    clockMapLe conn (updateClock1 w conn docId cl) := by
  cases w with
  | ours =>
      refine ⟨fun d k => ?_, fun d c h => ⟨c, h, fun _ => le_refl _⟩⟩
      by_cases hd : d = docId
      · subst hd
        simp only [updateClock1, if_pos rfl, if_true, getSeq_mergeClocks]
        exact le_max_left _ _
      · simp [updateClock1, hd]
  | theirs =>
      refine ⟨fun d k => le_refl _, fun d c h => ?_⟩
      by_cases hd : d = docId
      · subst hd
        refine ⟨mergeClocks ((conn.theirs d).getD []) cl, by simp [updateClock1], fun k => ?_⟩
        rw [getSeq_mergeClocks]
        simp [h]
      · exact ⟨c, by simp [updateClock1, hd, h], fun _ => le_refl _⟩

theorem updateClock_le (ws : List Which) (conn : ConnState) (docId : DocId) (cl : Clock) :
    clockMapLe conn (updateClock ws conn docId cl) := by
  induction ws generalizing conn with
  | nil => exact clockMapLe_refl conn
  | cons w ws ih =>
      exact clockMapLe_trans (updateClock1_le w conn docId cl)
        (ih (updateClock1 w conn docId cl))

theorem maybeSendChanges_le (conn : ConnState) (ds : DocSet) (docId : DocId) :
    clockMapLe conn (maybeSendChanges conn ds docId).1 := by
  unfold maybeSendChanges
  cases h : conn.theirs docId with
  | none => exact clockMapLe_refl conn
  | some tc =>
      cases hd : ds docId with
      | none => exact clockMapLe_refl conn
      | some d =>
          dsimp only
          split
          · exact updateClock_le _ conn docId _
          · exact clockMapLe_refl conn

theorem maybeRequestChanges_le (conn : ConnState) (ds : DocSet) (docId : DocId) :
    clockMapLe conn (maybeRequestChanges conn ds docId).1 := by
  unfold maybeRequestChanges
  cases docClock ds docId with
  | none => exact clockMapLe_refl conn
  | some cl =>
      dsimp only
      split
      · exact clockMapLe_refl conn
      · exact clockMapLe_refl conn

theorem receiveMsg_le (conn : ConnState) (ds : DocSet) (msg : Msg) :
    clockMapLe conn (receiveMsg conn ds msg).1 := by
  unfold receiveMsg
  have h₁ : clockMapLe conn
      (match msg.clock with
       | some cl => updateClock [Which.theirs] conn msg.docId cl
       | none => conn) := by
    cases msg.clock with
    | none => exact clockMapLe_refl conn
    | some cl => exact updateClock_le _ conn msg.docId cl
  cases msg.clock with
  | none =>
      cases msg.changes with
      | some chs => exact clockMapLe_refl conn
      | none =>
          dsimp only
          split
          · exact maybeSendChanges_le conn ds msg.docId
          · exact clockMapLe_refl conn
  | some cl =>
      cases msg.changes with
      | some chs => exact updateClock_le _ conn msg.docId cl
      | none =>
          dsimp only
          split
          · exact clockMapLe_trans (updateClock_le [Which.theirs] conn msg.docId cl)
              (maybeSendChanges_le _ ds msg.docId)
          · exact updateClock_le _ conn msg.docId cl

theorem docChanged_le (conn conn' : ConnState) (ds : DocSet) (docId : DocId)
    (msgs : List Msg) (h : docChanged conn ds docId = Except.ok (conn', msgs)) :
    clockMapLe conn conn' := by
  unfold docChanged at h
  cases hd : ds docId with
  | none => rw [hd] at h; exact absurd h (by simp)
  | some d =>
      rw [hd] at h
      dsimp only at h
      cases hc : d.clock with
      | none => rw [hc] at h; exact absurd h (by simp)
      | some cl =>
          rw [hc] at h
          dsimp only at h
          by_cases hle : lessOrEqual (conn.ours docId) cl = true
          · rw [if_pos hle] at h
            have h' := congrArg Prod.fst (Except.ok.inj h)
            dsimp at h'
            rw [← h']
            exact clockMapLe_trans (maybeSendChanges_le conn ds docId)
              (clockMapLe_trans (maybeRequestChanges_le _ ds docId)
                (updateClock_le _ _ docId cl))
          · rw [if_neg hle] at h
            exact absurd h (by simp)

theorem registerDoc_le (conn : ConnState) (ds : DocSet) (docId : DocId) :
    clockMapLe conn (registerDoc conn ds docId).1 :=
  updateClock_le _ conn docId _

theorem updateClock_theirs_eq (conn : ConnState) (docId : DocId) (cl : Clock) :
    (updateClock [Which.theirs] conn docId cl).theirs docId
      = some (mergeClocks ((conn.theirs docId).getD []) cl) := by
  simp [updateClock, updateClock1]

theorem receiveMsg_conn1_le (conn : ConnState) (ds : DocSet) (msg : Msg) (cl : Clock)
    (h : msg.clock = some cl) :
    clockMapLe (updateClock [Which.theirs] conn msg.docId cl) (receiveMsg conn ds msg).1 := by
  unfold receiveMsg
  rw [h]
  dsimp only
  cases msg.changes with
  | some chs => exact clockMapLe_refl _
  | none =>
      dsimp only
      split
      · exact maybeSendChanges_le _ ds msg.docId
      · exact clockMapLe_refl _

/-- C7 (amended): on receiving a message, the Connection records the peer's
clock by max-merging it into `theirClock` (old information is absorbed as a
hint, never rejected) and returns normally; a `docChanged` notification is
accepted exactly when the document clock is at least the recorded `ourClock`
(equality included), and raises `RangeError(ERR_OLDCLOCK)` exactly when the
document clock is strictly older in some component. -/
theorem stale_info_handling (conn : ConnState) (ds : DocSet) (msg : Msg) (cl : Clock)
    (docId : DocId) (d : DocState) (dcl : Clock)
    (hclock : msg.clock = some cl) (hd : ds docId = some d) (hdc : d.clock = some dcl) :
    (∃ cl', (receiveMsg conn ds msg).1.theirs msg.docId = some cl' ∧
      ∀ k, max (getSeq ((conn.theirs msg.docId).getD []) k) (getSeq cl k) ≤ getSeq cl' k) ∧
    ((∃ r, docChanged conn ds docId = Except.ok r) ↔
      lessOrEqual (conn.ours docId) dcl = true) ∧
    (docChanged conn ds docId = Except.error errOldClock ↔
      ¬ lessOrEqual (conn.ours docId) dcl = true) := by
  refine ⟨?_, ?_⟩
  · have h1 := updateClock_theirs_eq conn msg.docId cl
    have h2 := receiveMsg_conn1_le conn ds msg cl hclock
    rcases h2.2 _ _ h1 with ⟨cl', hres, hle⟩
    refine ⟨cl', hres, fun k => ?_⟩
    have := hle k
    rw [getSeq_mergeClocks] at this
    exact this
  · by_cases hle : lessOrEqual (conn.ours docId) dcl = true
    · have hok : ∃ r, docChanged conn ds docId = Except.ok r := by
        unfold docChanged
        rw [hd]
        dsimp only
        rw [hdc]
        dsimp only
        rw [if_pos hle]
        exact ⟨_, rfl⟩
      rcases hok with ⟨r, hr⟩
      refine ⟨⟨fun _ => hle, fun _ => ⟨r, hr⟩⟩, ?_, ?_⟩
      · intro h
        rw [hr] at h
        cases h
      · intro h
        exact absurd hle h
    · have herr : docChanged conn ds docId = Except.error errOldClock := by
        unfold docChanged
        rw [hd]
        dsimp only
        rw [hdc]
        dsimp only
        rw [if_neg hle]
      refine ⟨⟨fun ⟨r, hr⟩ => ?_, fun h => absurd h hle⟩, fun _ => hle, fun _ => herr⟩
      rw [herr] at hr
      cases hr

/-- Witness for `stale_info_handling` at a concrete stale message. -/
theorem stale_info_handling_witness :
    (∃ cl', ((receiveMsg { ours := fun _ => [], theirs := fun _ => some [("a", 3)] }
        (fun _ => some { clock := some [("a", 3)], changes := [] })
        { docId := "d1", clock := some [("a", 1)], changes := none }).1.theirs "d1" = some cl' ∧
      ∀ k, max (getSeq (((fun (_ : DocId) => some [("a", 3)]) "d1").getD []) k)
          (getSeq [("a", 1)] k) ≤ getSeq cl' k)) := by
  have h := stale_info_handling
    { ours := fun _ => [], theirs := fun _ => some [("a", 3)] }
    (fun _ => some { clock := some [("a", 3)], changes := [] })
    { docId := "d1", clock := some [("a", 1)], changes := none }
    [("a", 1)] "d1" { clock := some [("a", 3)], changes := [] } [("a", 3)]
    rfl rfl rfl
  exact h.1

/-- C7 counterexample: a `docChanged` notification whose clock `[("a",1)]`
is strictly older than the recorded `ourClock` `[("a",2)]` raises
`RangeError(ERR_OLDCLOCK)` instead of being treated as a hint. -/
theorem docChanged_stale_raises :
    docChanged { ours := fun _ => [("a", 2)], theirs := fun _ => none }
        (fun d => if d = "d1" then some { clock := some [("a", 1)], changes := [] } else none)
        "d1" = Except.error errOldClock ∧
    lessOrEqual [("a", 1)] [("a", 2)] = true ∧
    lessOrEqual [("a", 2)] [("a", 1)] = false :=
  ⟨rfl, rfl, rfl⟩

/-- C8: a received message without changes is answered with a document
request `{docId, clock: {}}` when the receiver does not hold the document,
and with the changes the peer is missing (when there are any) when it
does. -/
theorem receiveMsg_no_changes_spec (conn : ConnState) (ds : DocSet) (msg : Msg)
    (cl : Clock) (hclock : msg.clock = some cl) (hch : msg.changes = none) :
    (ds msg.docId = none →
      (receiveMsg conn ds msg).2.2 = [requestDoc msg.docId]) ∧
    (∀ d, ds msg.docId = some d →
      (receiveMsg conn ds msg).2.2 =
        (if 0 < (getMissingChanges d
            (mergeClocks ((conn.theirs msg.docId).getD []) cl)).length then
          [{ docId := msg.docId, clock := some (d.clock.getD []),
             changes := some (getMissingChanges d
               (mergeClocks ((conn.theirs msg.docId).getD []) cl)) }]
         else [])) := by
  constructor
  · intro hnone
    unfold receiveMsg
    rw [hclock, hch]
    dsimp only
    rw [if_neg (by rw [hnone]; simp)]
  · intro d hsome
    unfold receiveMsg
    rw [hclock, hch]
    dsimp only
    rw [if_pos (by rw [hsome]; simp)]
    unfold maybeSendChanges
    rw [updateClock_theirs_eq, hsome]
    dsimp only
    split
    · rfl
    · rfl

/-- Witness for `receiveMsg_no_changes_spec`: an unknown docId triggers a
document request. -/
theorem receiveMsg_no_changes_witness :
    (receiveMsg initConn (fun _ => none)
      { docId := "d1", clock := some [("a", 2)], changes := none }).2.2
      = [requestDoc "d1"] :=
  (receiveMsg_no_changes_spec initConn (fun _ => none)
    { docId := "d1", clock := some [("a", 2)], changes := none }
    [("a", 2)] rfl rfl).1 rfl

/-- C9: every Connection operation updates the per-document clocks by a
max-merge, so recorded sequence numbers never decrease and recorded clocks
never disappear. -/
theorem step_clock_monotone (c₁ c₂ : ConnState) (h : Step c₁ c₂) :
    clockMapLe c₁ c₂ :=
  match h with
  | Step.recv _ ds msg => receiveMsg_le _ ds msg
  | Step.changed _ _ ds docId msgs heq => docChanged_le _ _ ds docId msgs heq
  | Step.reg _ ds docId => registerDoc_le _ ds docId

/-- Witness for `step_clock_monotone` at a concrete receive step. -/
theorem step_clock_monotone_witness :
    clockMapLe initConn
      (receiveMsg initConn (fun _ => none)
        { docId := "d1", clock := some [("a", 2)], changes := none }).1 :=
  step_clock_monotone _ _
    (Step.recv initConn (fun _ => none)
      { docId := "d1", clock := some [("a", 2)], changes := none })

/-- C10: when no clock has been recorded for the peer for a docId,
`maybeSendChanges` returns without sending anything and without changing the
Connection state. -/
theorem maybeSendChanges_requires_theirClock (conn : ConnState) (ds : DocSet)
    (docId : DocId) (h : conn.theirs docId = none) :
    maybeSendChanges conn ds docId = (conn, []) := by
  unfold maybeSendChanges
  rw [h]

/-- Witness for `maybeSendChanges_requires_theirClock`. -/
theorem maybeSendChanges_requires_theirClock_witness :
    maybeSendChanges initConn (fun _ => none) "d1" = (initConn, []) :=
  maybeSendChanges_requires_theirClock initConn (fun _ => none) "d1" rfl

end Conn

namespace Automerge

/-- C3: applying a change already applied in a backend state is a no-op:
the history DAG recognises the hash and ignores the duplicate, so
`applyChanges` returns the state unchanged. -/
theorem applyChanges_duplicate_noop (hfn : Change → Hash) (s : OpSetState) (c : Change)
    (h : hfn c ∈ s.hashes) : addChanges hfn s [c] = Except.ok s := by
  unfold addChanges addChange
  simp [h]

/-- Witness for `applyChanges_duplicate_noop`. -/
theorem applyChanges_duplicate_noop_witness :
    (7 : Hash) ∈ ({ initState with hashes := {7} } : OpSetState).hashes ∧
    addChanges (fun _ => 7) { initState with hashes := {7} }
      [{ actor := "a", seq := 1, startOp := 1, time := 0, message := "",
         deps := [], ops := [] }]
      = Except.ok { initState with hashes := {7} } :=
  ⟨by decide, applyChanges_duplicate_noop _ _ _ (by decide)⟩

theorem addChange_ok_of_next_seq (hfn : Change → Hash) (s : OpSetState) (c : Change)
    (hq : s.queue = []) (hseq : c.seq = (s.statesByActor c.actor).length + 1) :
    ∃ s', addChange hfn s c = Except.ok s' := by
  unfold addChange
  by_cases hh : hfn c ∈ s.hashes
  · rw [if_pos hh]
    exact ⟨s, rfl⟩
  · rw [if_neg hh]
    by_cases hd : depsSatisfied s c = true
    · rw [if_neg (by simp [hd])]
      rw [if_neg (by omega)]
      rw [hq]
      exact ⟨_, rfl⟩
    · rw [if_pos (by simp [hd])]
      exact ⟨_, rfl⟩

/-- C4: `applyLocalChange` throws `RangeError('Change request has already
been applied')` whenever the change's seq is at most the number of changes
already applied for its actor (leaving the state unchanged, since the error
is raised before any mutation), and applies the change without error when
the seq is the next expected one. -/
theorem applyLocalChange_seq_spec (hfn : Change → Hash) (s : OpSetState) (c : Change)
    (hq : s.queue = []) :
    (c.seq ≤ (s.statesByActor c.actor).length →
      applyLocalChange hfn s c = Except.error "Change request has already been applied") ∧
    (c.seq = (s.statesByActor c.actor).length + 1 →
      ∃ r, applyLocalChange hfn s c = Except.ok r) := by
  constructor
  · intro h
    unfold applyLocalChange
    rw [if_pos h]
  · intro h
    unfold applyLocalChange
    rw [if_neg (by omega)]
    dsimp only
    by_cases h1 : 1 < c.seq
    · rw [if_pos h1]
      have hlen : c.seq - 2 < (s.statesByActor c.actor).length := by omega
      obtain ⟨lastHash, hidx⟩ : ∃ lh, (s.statesByActor c.actor)[c.seq - 2]? = some lh :=
        ⟨_, List.getElem?_eq_getElem hlen⟩
      rw [hidx]
      dsimp only
      obtain ⟨s', hs'⟩ := addChange_ok_of_next_seq hfn s
        { c with deps := List.insertionSort (· ≤ ·) ((lastHash :: c.deps).dedup) }
        hq (by simpa using h)
      rw [hs']
      exact ⟨_, rfl⟩
    · rw [if_neg h1]
      dsimp only
      obtain ⟨s', hs'⟩ := addChange_ok_of_next_seq hfn s c hq h
      rw [hs']
      exact ⟨_, rfl⟩

/-- Witness for `applyLocalChange_seq_spec` at a state with one applied
change for the actor. -/
theorem applyLocalChange_seq_spec_witness :
    (({ initState with statesByActor := fun a => if a = "a" then [7] else [] }
        : OpSetState).queue = []) ∧
    (∀ hdup : (1 : Nat) ≤ 1,
      applyLocalChange (fun _ => 9)
        { initState with statesByActor := fun a => if a = "a" then [7] else [] }
        { actor := "a", seq := 1, startOp := 1, time := 0, message := "",
          deps := [], ops := [] }
        = Except.error "Change request has already been applied") := by
  refine ⟨rfl, fun hdup => ?_⟩
  exact (applyLocalChange_seq_spec (fun _ => 9) _ _ rfl).1 (by simpa using hdup)

/-- C6: for a local change accepted with `seq > 1`, the deps of the change
that is encoded and hashed are sorted (byte-lexicographically on the
fixed-width hex rendering, i.e. numerically), and they include the hash of
the same actor's previous change in addition to every caller-supplied dep
hash. -/
theorem localChange_deps_sorted (hfn : Change → Hash) (s : OpSetState) (c c'' : Change)
    (hseq : 1 < c.seq) (h : localChangeResult hfn s c = some c'') :
    c''.deps.Sorted (· ≤ ·) ∧
    (∀ lastHash, (s.statesByActor c.actor)[c.seq - 2]? = some lastHash →
      lastHash ∈ c''.deps) ∧
    (∀ d ∈ c.deps, d ∈ c''.deps) := by
  unfold localChangeResult at h
  cases happ : applyLocalChange hfn s c with
  | error e => rw [happ] at h; cases h
  | ok r =>
      rw [happ] at h
      simp only [Except.toOption, Option.map_some] at h
      unfold applyLocalChange at happ
      by_cases hdup : c.seq ≤ (s.statesByActor c.actor).length
      · rw [if_pos hdup] at happ
        cases happ
      · rw [if_neg hdup, if_pos hseq] at happ
        dsimp only at happ
        cases hidx : (s.statesByActor c.actor)[c.seq - 2]? with
        | none => rw [hidx] at happ; cases happ
        | some lastHash =>
            rw [hidx] at happ
            dsimp only at happ
            cases hadd : addChange hfn s
                { c with deps := List.insertionSort (· ≤ ·) ((lastHash :: c.deps).dedup) } with
            | error e => rw [hadd] at happ; cases happ
            | ok s' =>
                rw [hadd] at happ
                dsimp only at happ
                replace happ := Except.ok.inj happ
                replace h : r.2 = c'' := by simpa using h
                rw [← h, ← happ]
                dsimp only
                refine ⟨List.sorted_insertionSort _ _, ?_, ?_⟩
                · intro lh hlh
                  cases hlh
                  rw [(List.perm_insertionSort _ _).mem_iff, List.mem_dedup]
                  exact List.mem_cons_self _ _
                · intro d hd
                  rw [(List.perm_insertionSort _ _).mem_iff, List.mem_dedup]
                  exact List.mem_cons_of_mem _ hd

/-- Witness for `localChange_deps_sorted`: caller deps `[9, 3]` plus the
previous hash `7` become the sorted list `[3, 7, 9]`. -/
theorem localChange_deps_sorted_witness :
    localChangeResult (fun _ => 11)
      { initState with statesByActor := fun a => if a = "a" then [7] else [] }
      { actor := "a", seq := 2, startOp := 1, time := 0, message := "",
        deps := [9, 3], ops := [] }
      = some { actor := "a", seq := 2, startOp := 1, time := 0, message := "",
               deps := [3, 7, 9], ops := [] } ∧
    ([3, 7, 9] : List Hash).Sorted (· ≤ ·) ∧ (7 : Hash) ∈ [3, 7, 9] := by
  refine ⟨rfl, ?_, by decide⟩
  have h := localChange_deps_sorted (fun _ => 11)
    { initState with statesByActor := fun a => if a = "a" then [7] else [] }
    { actor := "a", seq := 2, startOp := 1, time := 0, message := "",
      deps := [9, 3], ops := [] }
    { actor := "a", seq := 2, startOp := 1, time := 0, message := "",
      deps := [3, 7, 9], ops := [] }
    (by decide) (by decide)
  simpa using h.1

theorem hash_inj {hfn : Change → Hash} {l : List Change}
    (h : (l.map hfn).Nodup) :
    ∀ x ∈ l, ∀ y ∈ l, hfn x = hfn y → x = y :=
  List.inj_on_of_nodup_map h

theorem nodup_of_map_nodup {α β : Type} {f : α → β} {l : List α}
    (h : (l.map f).Nodup) : l.Nodup :=
  List.Nodup.of_map f h

theorem find?_eq_of_unique {α : Type} {p : α → Bool} {l₁ l₂ : List α}
    (hp : List.Perm l₁ l₂)
    (huniq : ∀ x ∈ l₁, ∀ y ∈ l₁, p x = true → p y = true → x = y) :
    l₁.find? p = l₂.find? p := by
  cases h₁ : l₁.find? p with
  | none =>
      rw [List.find?_eq_none] at h₁
      cases h₂ : l₂.find? p with
      | none => rfl
      | some b =>
          have hb := List.find?_some h₂
          have hbm := List.mem_of_find?_eq_some h₂
          exact absurd hb (by simpa using h₁ b (hp.symm.subset hbm))
  | some a =>
      have ha := List.find?_some h₁
      have ham := List.mem_of_find?_eq_some h₁
      cases h₂ : l₂.find? p with
      | none =>
          rw [List.find?_eq_none] at h₂
          exact absurd ha (by simpa using h₂ a (hp.subset ham))
      | some b =>
          have hb := List.find?_some h₂
          have hbm := List.mem_of_find?_eq_some h₂
          rw [huniq a ham b (hp.symm.subset hbm) ha hb]

theorem split_unique {α : Type} {P P' R R' : List α} {c : α}
    (hnd : (P ++ c :: R).Nodup) (h : P ++ c :: R = P' ++ c :: R') :
    P = P' ∧ R = R' := by
  induction P generalizing P' with
  | nil =>
      cases P' with
      | nil => simpa using h
      | cons b Q =>
          simp only [List.nil_append, List.cons_append] at h
          obtain ⟨hcb, hrest⟩ := List.cons.inj h
          exfalso
          have hcR : c ∈ R := by
            rw [hrest]
            exact List.mem_append_right _ (List.mem_cons_self _ _)
          have hnd2 : c ∉ R := by
            have h0 := hnd
            rw [List.nil_append, List.nodup_cons] at h0
            exact h0.1
          exact hnd2 hcR
  | cons a P ih =>
      cases P' with
      | nil =>
          simp only [List.cons_append, List.nil_append] at h
          obtain ⟨hac, hrest⟩ := List.cons.inj h
          exfalso
          have hnd2 : a ∉ P ++ c :: R := by
            have h0 := hnd
            rw [List.cons_append, List.nodup_cons] at h0
            exact h0.1
          exact hnd2 (hac.symm ▸ List.mem_append_right _ (List.mem_cons_self _ _))
      | cons b Q =>
          simp only [List.cons_append] at h
          obtain ⟨hab, hrest⟩ := List.cons.inj h
          have hnd' : (P ++ c :: R).Nodup := by
            have h0 := hnd
            rw [List.cons_append, List.nodup_cons] at h0
            exact h0.2
          obtain ⟨h1, h2⟩ := ih hnd' hrest
          exact ⟨by rw [hab, h1], h2⟩

theorem before_trans {l : List Change} {a b c : Change}
    (hnd : l.Nodup) (h₁ : Before l a b) (h₂ : Before l b c) : Before l a c := by
  rcases h₁ with ⟨P, R, hPR, haP⟩
  rcases h₂ with ⟨P', R', hPR', hbP'⟩
  rcases List.append_of_mem hbP' with ⟨A, B, hAB⟩
  have hl : P ++ b :: R = A ++ b :: (B ++ c :: R') := by
    rw [← hPR, hPR', hAB]
    simp
  obtain ⟨hPA, _⟩ := split_unique (hPR ▸ hnd) hl
  exact ⟨P', R', hPR', hAB ▸ List.mem_append.mpr (Or.inl (hPA ▸ haP))⟩

theorem before_of_mem_prefix {l P R : List Change} {c c' : Change}
    (h : l = P ++ c' :: R) (hm : c ∈ P) : Before l c c' :=
  ⟨P, R, h, hm⟩

theorem depsOK_mono {hfn : Change → Hash} {seen seen' : Finset Hash}
    {l : List Change} (h : depsOK hfn seen l) (hs : ∀ x ∈ seen, x ∈ seen') :
    depsOK hfn seen' l := by
  induction l generalizing seen seen' with
  | nil => trivial
  | cons c t ih =>
      obtain ⟨h1, h2⟩ := h
      refine ⟨fun d hd => hs d (h1 d hd), ih h2 ?_⟩
      intro x hx
      rcases Finset.mem_insert.mp hx with rfl | hx
      · exact Finset.mem_insert_self _ _
      · exact Finset.mem_insert_of_mem (hs x hx)

theorem depsOK_split {hfn : Change → Hash} {seen : Finset Hash}
    {l P R : List Change} {c : Change}
    (h : depsOK hfn seen l) (hl : l = P ++ c :: R) :
    ∀ d ∈ c.deps, d ∈ seen ∨ d ∈ P.map hfn := by
  induction P generalizing seen l with
  | nil =>
      subst hl
      exact fun d hd => Or.inl (h.1 d hd)
  | cons a P ih =>
      subst hl
      obtain ⟨_, h2⟩ := h
      intro d hd
      rcases ih h2 rfl d hd with hmem | hmem
      · rcases Finset.mem_insert.mp hmem with rfl | hmem
        · exact Or.inr (by simp)
        · exact Or.inl hmem
      · exact Or.inr (by simp [hmem])

theorem depsOK_append_intro {hfn : Change → Hash} {seen seen' : Finset Hash}
    {X Z : List Change}
    (hX : depsOK hfn seen X) (hZ : depsOK hfn seen' Z)
    (h : ∀ x ∈ seen', x ∈ seen ∨ x ∈ X.map hfn) :
    depsOK hfn seen (X ++ Z) := by
  induction X generalizing seen with
  | nil =>
      exact depsOK_mono hZ (fun x hx => by
        rcases h x hx with hx' | hx'
        · exact hx'
        · exact absurd hx' (by simp))
  | cons a X ih =>
      obtain ⟨h1, h2⟩ := hX
      refine ⟨h1, ih h2 ?_⟩
      intro x hx
      rcases h x hx with hx' | hx'
      · exact Or.inl (Finset.mem_insert_of_mem hx')
      · rcases List.mem_map.mp hx' with ⟨y, hy, rfl⟩
        rcases List.mem_cons.mp hy with rfl | hy
        · exact Or.inl (Finset.mem_insert_self _ _)
        · exact Or.inr (List.mem_map_of_mem hfn hy)

theorem dep_before {hfn : Change → Hash} {l : List Change}
    (hnodup : (l.map hfn).Nodup) (hdeps : depsOK hfn ∅ l)
    {c c' : Change} (hc : c ∈ l) (hc' : c' ∈ l) (hdep : hfn c ∈ c'.deps) :
    Before l c c' := by
  rcases List.append_of_mem hc' with ⟨P, R, hPR⟩
  rcases depsOK_split hdeps hPR (hfn c) hdep with hmem | hmem
  · exact absurd hmem (by simp)
  · rcases List.mem_map.mp hmem with ⟨x, hx, hxc⟩
    have hxl : x ∈ l := hPR ▸ List.mem_append_left _ hx
    have : x = c := hash_inj hnodup x hxl c hc hxc
    exact ⟨P, R, hPR, this ▸ hx⟩

theorem anc_before {hfn : Change → Hash} {l : List Change}
    (hnodup : (l.map hfn).Nodup) (hdeps : depsOK hfn ∅ l) :
    ∀ (fuel : Nat) (c c' : Change), c ∈ l → c' ∈ l →
      ancB hfn l fuel c c' = true → Before l c c' := by
  intro fuel
  induction fuel with
  | zero => intro c c' _ _ h; cases h
  | succ n ih =>
      intro c c' hc hc' h
      simp only [ancB, Bool.or_eq_true, List.any_eq_true, Bool.and_eq_true,
        decide_eq_true_eq] at h
      rcases h with hdir | ⟨m, hm, hmdep, hanc⟩
      · exact dep_before hnodup hdeps hc hc' hdir
      · exact before_trans (nodup_of_map_nodup hnodup)
          (ih c m hc hm hanc) (dep_before hnodup hdeps hm hc' hmdep)

theorem not_mem_prefix_self {α : Type} {l P R : List α} {c : α}
    (hnd : l.Nodup) (h : l = P ++ c :: R) : c ∉ P := by
  intro hc
  subst h
  exact (List.disjoint_of_nodup_append hnd) hc (List.mem_cons_self _ _)

theorem seq_chain {hfn : Change → Hash} {l : List Change}
    (hv : ValidSet hfn l) (hd : depsOK hfn ∅ l) :
    ∀ (n : Nat), ∀ c ∈ l, c.seq ≤ n → ∀ P R, l = P ++ c :: R →
      ∀ s, 1 ≤ s → s < c.seq →
        ∃ c' ∈ P, c'.actor = c.actor ∧ c'.seq = s := by
  obtain ⟨hnodup, _, hseq1, hasn, hpred, _⟩ := hv
  intro n
  induction n with
  | zero => intro c _ hle _ _ _ s h1 h2; omega
  | succ n ih =>
      intro c hc hle P R hPR s h1 h2
      have h1c : 1 < c.seq := by omega
      obtain ⟨c₀, hc₀l, hc₀a, hc₀s, hc₀d⟩ := hpred c hc h1c
      have hc₀P : c₀ ∈ P := by
        rcases depsOK_split hd hPR (hfn c₀) hc₀d with hmem | hmem
        · exact absurd hmem (by simp)
        · rcases List.mem_map.mp hmem with ⟨x, hx, hxc⟩
          have hxl : x ∈ l := hPR ▸ List.mem_append_left _ hx
          exact (hash_inj hnodup x hxl c₀ hc₀l hxc) ▸ hx
      by_cases hs : s = c.seq - 1
      · exact ⟨c₀, hc₀P, hc₀a, hs ▸ hc₀s⟩
      · rcases List.append_of_mem hc₀P with ⟨A, B, hAB⟩
        have hl' : l = A ++ c₀ :: (B ++ c :: R) := by rw [hPR, hAB]; simp
        obtain ⟨c', hc'A, hc'a, hc's⟩ :=
          ih c₀ hc₀l (by omega) A (B ++ c :: R) hl' s h1 (by omega)
        exact ⟨c', hAB ▸ List.mem_append_left _ hc'A, hc'a.trans hc₀a, hc's⟩

theorem seq_facts_at_split {hfn : Change → Hash} {l : List Change}
    (hv : ValidSet hfn l) (hd : depsOK hfn ∅ l) :
    ∀ P c R, l = P ++ c :: R →
      (∀ x ∈ P, x.actor = c.actor → x.seq < c.seq) ∧
      c.seq = (P.filter (fun x => x.actor = c.actor)).length + 1 := by
  intro P c R hPR
  have hnd : l.Nodup := nodup_of_map_nodup hv.1
  have hcl : c ∈ l := hPR ▸ List.mem_append_right _ (List.mem_cons_self _ _)
  have hcnotP : c ∉ P := not_mem_prefix_self hnd hPR
  have hlt : ∀ x ∈ P, x.actor = c.actor → x.seq < c.seq := by
    intro x hx hxa
    have hxl : x ∈ l := hPR ▸ List.mem_append_left _ hx
    have hxnec : x ≠ c := fun h => hcnotP (h ▸ hx)
    have hsne : x.seq ≠ c.seq := fun h =>
      hxnec (hv.2.2.2.1 x hxl c hcl hxa h)
    rcases lt_or_gt_of_ne hsne with h | h
    · exact h
    · exfalso
      rcases List.append_of_mem hx with ⟨A, B, hAB⟩
      have hl' : l = A ++ x :: (B ++ c :: R) := by rw [hPR, hAB]; simp
      obtain ⟨q, hqA, hqa, hqs⟩ := seq_chain hv hd x.seq x hxl (le_refl _)
        A (B ++ c :: R) hl' c.seq (hv.2.2.1 c hcl) h
      have hql : q ∈ l := hl' ▸ List.mem_append_left _ hqA
      have : q = c := hv.2.2.2.1 q hql c hcl (hqa.trans hxa) hqs
      subst this
      exact hcnotP (hAB ▸ List.mem_append_left _ hqA)
  refine ⟨hlt, ?_⟩
  have hF : (P.filter (fun x => x.actor = c.actor)).Nodup :=
    ((List.nodup_append.mp (hPR ▸ hnd)).1).filter _
  have hmapnd : ((P.filter (fun x => x.actor = c.actor)).map Change.seq).Nodup := by
    refine List.Nodup.map_on ?_ hF
    intro x hx y hy hxy
    have hx' := List.mem_filter.mp hx
    have hy' := List.mem_filter.mp hy
    have hxl : x ∈ l := hPR ▸ List.mem_append_left _ hx'.1
    have hyl : y ∈ l := hPR ▸ List.mem_append_left _ hy'.1
    exact hv.2.2.2.1 x hxl y hyl
      (by
        have h1 : x.actor = c.actor := by simpa using hx'.2
        have h2 : y.actor = c.actor := by simpa using hy'.2
        rw [h1, h2]) hxy
  have htf : ((P.filter (fun x => x.actor = c.actor)).map Change.seq).toFinset
      = Finset.Ico 1 c.seq := by
    apply Finset.ext
    intro s
    simp only [List.mem_toFinset, List.mem_map, Finset.mem_Ico]
    constructor
    · rintro ⟨x, hx, rfl⟩
      have hx' := List.mem_filter.mp hx
      have hxl : x ∈ l := hPR ▸ List.mem_append_left _ hx'.1
      exact ⟨hv.2.2.1 x hxl, hlt x hx'.1 (by simpa using hx'.2)⟩
    · rintro ⟨h1, h2⟩
      obtain ⟨c', hc'P, hc'a, hc's⟩ := seq_chain hv hd c.seq c hcl (le_refl _)
        P R hPR s h1 h2
      exact ⟨c', List.mem_filter.mpr ⟨hc'P, by simpa using hc'a⟩, hc's⟩
  have hlen : (P.filter (fun x => x.actor = c.actor)).length = c.seq - 1 := by
    have h1 : ((P.filter (fun x => x.actor = c.actor)).map Change.seq).length
        = (P.filter (fun x => x.actor = c.actor)).length := List.length_map _ _
    have h2 := List.toFinset_card_of_nodup hmapnd
    rw [htf] at h2
    rw [Nat.card_Ico] at h2
    omega
  have := hv.2.2.1 c hcl
  omega

theorem opsOf_append (A B : List Change) : opsOf (A ++ B) = opsOf A ++ opsOf B := by
  simp [opsOf]

theorem opsOf_nil : opsOf [] = [] := rfl

theorem opsOf_cons (c : Change) (t : List Change) :
    opsOf (c :: t) = c.ops ++ opsOf t := by
  simp [opsOf]

theorem flatMap_split {l : List Change} {L₁ L₂ : List Op} {o : Op}
    (h : opsOf l = L₁ ++ o :: L₂) :
    ∃ l₁ c l₂ κ ρ, l = l₁ ++ c :: l₂ ∧ c.ops = κ ++ o :: ρ ∧
      L₁ = opsOf l₁ ++ κ := by
  induction l generalizing L₁ with
  | nil =>
      rw [opsOf_nil] at h
      exact absurd h.symm (by simp)
  | cons c t ih =>
      rw [opsOf_cons] at h
      rcases List.append_eq_append_iff.mp h with ⟨w, hw1, hw2⟩ | ⟨w, hw1, hw2⟩
      · -- L₁ = c.ops ++ w, opsOf t = w ++ o :: L₂
        obtain ⟨l₁, c', l₂, κ, ρ, ht, hops, hL⟩ := ih hw2
        refine ⟨c :: l₁, c', l₂, κ, ρ, by rw [ht]; simp, hops, ?_⟩
        rw [hw1, hL, opsOf_cons]
        simp
      · -- c.ops = L₁ ++ w, o :: L₂ = w ++ opsOf t
        cases w with
        | nil =>
            simp only [List.append_nil] at hw1
            rw [List.nil_append] at hw2
            obtain ⟨l₁, c', l₂, κ, ρ, ht, hops, hL⟩ := @ih [] (by simpa using hw2.symm)
            refine ⟨c :: l₁, c', l₂, κ, ρ, by rw [ht]; simp, hops, ?_⟩
            rw [opsOf_cons, List.append_assoc, ← hL, List.append_nil]
            exact hw1.symm
        | cons w₀ w' =>
            have ho : o = w₀ ∧ L₂ = w' ++ opsOf t := by
              have := hw2
              rw [List.cons_append] at this
              exact ⟨(List.cons.inj this).1, (List.cons.inj this).2⟩
            refine ⟨[], c, t, L₁, w', rfl, ?_, by rw [opsOf_nil]; simp⟩
            rw [hw1, ho.1]

theorem predSeqOps_split {avail : List OpId} {ops κ ρ : List Op} {o : Op}
    (h : predSeqOps avail ops = true) (hops : ops = κ ++ o :: ρ) :
    ∀ p ∈ o.pred, p ∈ avail ∨ p ∈ κ.map Op.id := by
  induction κ generalizing avail ops with
  | nil =>
      subst hops
      simp only [predSeqOps, Bool.and_eq_true, decide_eq_true_eq] at h
      exact fun p hp => Or.inl (h.1 p hp)
  | cons k κ' ih =>
      subst hops
      simp only [List.cons_append, predSeqOps, Bool.and_eq_true,
        decide_eq_true_eq] at h
      intro p hp
      rcases ih h.2 rfl p hp with hmem | hmem
      · rcases List.mem_append.mp hmem with hmem | hmem
        · exact Or.inl hmem
        · have hpk : p = Op.id k := by simpa using hmem
          exact Or.inr (by rw [List.map_cons]; exact List.mem_cons.mpr (Or.inl hpk))
      · exact Or.inr (by rw [List.map_cons]; exact List.mem_cons.mpr (Or.inr hmem))

theorem pointsBack_opsOf {hfn : Change → Hash} {l : List Change}
    (hv : ValidSet hfn l) (hd : depsOK hfn ∅ l) : PointsBack (opsOf l) := by
  intro L₁ o L₂ hsplit p hp
  obtain ⟨l₁, c, l₂, κ, ρ, hl, hops, hL⟩ := flatMap_split hsplit
  have hcl : c ∈ l := hl ▸ List.mem_append_right _ (List.mem_cons_self _ _)
  have hps := hv.2.2.2.2.2 c hcl
  rcases predSeqOps_split hps hops p hp with hmem | hmem
  · -- p is an op id of a causal ancestor of c
    simp only [ancOpIds, List.mem_flatMap, List.mem_filter] at hmem
    obtain ⟨cₐ, ⟨hcₐl, hanc⟩, hpid⟩ := hmem
    have hbef := anc_before hv.1 hd l.length cₐ c hcₐl hcl hanc
    obtain ⟨P, R, hPR, hcₐP⟩ := hbef
    have hP : P = l₁ :=
      (split_unique (hPR ▸ nodup_of_map_nodup hv.1) (hPR.symm.trans hl)).1
    have hcₐl₁ : cₐ ∈ l₁ := hP ▸ hcₐP
    rw [hL, List.map_append]
    refine List.mem_append_left _ ?_
    rcases List.mem_map.mp hpid with ⟨x, hx, rfl⟩
    exact List.mem_map_of_mem _ (List.mem_flatMap.mpr ⟨cₐ, hcₐl₁, hx⟩)
  · rw [hL, List.map_append]
    exact List.mem_append_right _ hmem

theorem pointsBack_prefix {A B : List Op} (h : PointsBack (A ++ B)) :
    PointsBack A := by
  intro L₁ o L₂ hsplit p hp
  exact h L₁ o (L₂ ++ B) (by rw [hsplit]; simp) p hp

theorem applyOp_fixed (s : OpSetState) (o : Op) :
    (applyOp s o).hashes = s.hashes ∧ (applyOp s o).byHash = s.byHash ∧
    (applyOp s o).statesByActor = s.statesByActor ∧ (applyOp s o).queue = s.queue := by
  unfold applyOp
  dsimp only
  repeat' split
  all_goals exact ⟨rfl, rfl, rfl, rfl⟩

theorem toFinset_concat (L : List Op) (o : Op) :
    (L ++ [o]).toFinset = insert o L.toFinset := by
  ext x
  simp [or_comm]

theorem insertDesc_perm (a : OpId) (l : List OpId) :
    List.Perm (insertDesc a l) (a :: l) := by
  induction l with
  | nil => simp [insertDesc]
  | cons b t ih =>
      unfold insertDesc
      split
      · exact (ih.cons b).trans (List.Perm.swap a b t)
      · exact List.Perm.refl _

theorem insertDesc_sorted {a : OpId} {l : List OpId}
    (hs : List.Sorted (· > ·) l) (ha : a ∉ l) :
    List.Sorted (· > ·) (insertDesc a l) := by
  induction l with
  | nil => simp [insertDesc]
  | cons b t ih =>
      rw [List.sorted_cons] at hs
      unfold insertDesc
      split
      · next hba =>
          rw [List.sorted_cons]
          constructor
          · intro x hx
            rcases List.mem_cons.mp ((insertDesc_perm a t).mem_iff.mp hx) with rfl | hx'
            · exact hba
            · exact hs.1 x hx'
          · exact ih hs.2 (fun h => ha (List.mem_cons_of_mem _ h))
      · next hba =>
          have hne : a ≠ b := fun h => ha (h ▸ List.mem_cons_self _ _)
          have hba' : b < a := lt_of_le_of_ne (not_lt.mp hba) (fun h => hne h.symm)
          rw [List.sorted_cons]
          refine ⟨?_, List.sorted_cons.mpr hs⟩
          intro x hx
          rcases List.mem_cons.mp hx with rfl | hx
          · exact hba'
          · exact lt_trans (hs.1 x hx) hba'

theorem sortDesc_sorted (s : Finset OpId) : List.Sorted (· > ·) (sortDesc s) := by
  unfold sortDesc
  exact List.pairwise_reverse.mpr (by simpa using Finset.sort_sorted_lt s)

theorem sortDesc_perm_toList (s : Finset OpId) :
    List.Perm (sortDesc s) s.toList := by
  unfold sortDesc
  exact (List.reverse_perm _).trans (Finset.sort_perm_toList _ s)

theorem mem_sortDesc {s : Finset OpId} {x : OpId} :
    x ∈ sortDesc s ↔ x ∈ s := by
  rw [(sortDesc_perm_toList s).mem_iff, Finset.mem_toList]

theorem insertDesc_sortDesc {a : OpId} {s : Finset OpId} (ha : a ∉ s) :
    insertDesc a (sortDesc s) = sortDesc (insert a s) := by
  refine List.eq_of_perm_of_sorted ?_
    (insertDesc_sorted (sortDesc_sorted s) (fun h => ha (mem_sortDesc.mp h)))
    (sortDesc_sorted _)
  exact (insertDesc_perm a _).trans
    (((sortDesc_perm_toList s).cons a).trans
      (((Finset.toList_insert ha).symm).trans (sortDesc_perm_toList _).symm))

theorem killedIn_insert {S : Finset Op} {o x : Op} :
    killedIn (insert o S) x ↔ killedIn S x ∨ kills o x := by
  unfold killedIn
  constructor
  · rintro ⟨o', ho', hk⟩
    rcases Finset.mem_insert.mp ho' with rfl | ho'
    · exact Or.inr hk
    · exact Or.inl ⟨o', ho', hk⟩
  · rintro (⟨o', ho', hk⟩ | hk)
    · exact ⟨o', Finset.mem_insert_of_mem ho', hk⟩
    · exact ⟨o, Finset.mem_insert_self _ _, hk⟩

theorem mem_canonAssigns {S : Finset Op} {k : OpId × Key} {y : OpId} :
    y ∈ canonAssigns S k ↔
      ∃ x ∈ S, x.dest = k ∧ x.contributes ∧ ¬ killedIn S x ∧ x.id = y := by
  unfold canonAssigns
  simp only [Finset.mem_image, Finset.mem_filter]
  constructor
  · rintro ⟨x, ⟨hx, h1, h2, h3⟩, h4⟩
    exact ⟨x, hx, h1, h2, h3, h4⟩
  · rintro ⟨x, hx, h1, h2, h3, h4⟩
    exact ⟨x, ⟨hx, h1, h2, h3⟩, h4⟩

theorem canonAssigns_concat_inc {T : Finset Op} {o : Op}
    (ha : o.action = Action.inc) (k : OpId × Key) :
    canonAssigns (insert o T) k = canonAssigns T k := by
  apply Finset.ext
  intro y
  rw [mem_canonAssigns, mem_canonAssigns]
  constructor
  · rintro ⟨x, hx, hdest, hcontrib, hnk, hid⟩
    rcases Finset.mem_insert.mp hx with rfl | hx
    · exact absurd ha hcontrib.2
    · refine ⟨x, hx, hdest, hcontrib, ?_, hid⟩
      rintro ⟨o', ho', hko⟩
      exact hnk ⟨o', Finset.mem_insert_of_mem ho', hko⟩
  · rintro ⟨x, hx, hdest, hcontrib, hnk, hid⟩
    refine ⟨x, Finset.mem_insert_of_mem hx, hdest, hcontrib, ?_, hid⟩
    intro hk
    rcases killedIn_insert.mp hk with hk | hk
    · exact hnk hk
    · exact hk.1 ha

theorem canonAssigns_concat_other {T : Finset Op} {o : Op}
    (ha : o.action ≠ Action.inc)
    (hfresh : ∀ x ∈ T, x.id ≠ o.id)
    (hnokill : ¬ killedIn (insert o T) o) (k : OpId × Key) :
    canonAssigns (insert o T) k =
      (if k = o.dest then
        (if o.action = Action.del then canonAssigns T k \ o.pred
         else insert o.id (canonAssigns T k \ o.pred))
       else canonAssigns T k) := by
  by_cases hk : k = o.dest
  · rw [if_pos hk]
    subst hk
    by_cases hdel : o.action = Action.del
    · rw [if_pos hdel]
      apply Finset.ext
      intro y
      rw [mem_canonAssigns, Finset.mem_sdiff, mem_canonAssigns]
      constructor
      · rintro ⟨x, hx, hdest, hcontrib, hnk, hid⟩
        rcases Finset.mem_insert.mp hx with rfl | hx
        · exact absurd hdel hcontrib.1
        · refine ⟨⟨x, hx, hdest, hcontrib, ?_, hid⟩, ?_⟩
          · rintro ⟨o', ho', hko⟩
            exact hnk ⟨o', Finset.mem_insert_of_mem ho', hko⟩
          · intro hyp
            exact hnk (killedIn_insert.mpr (Or.inr ⟨ha, by rw [hdest], hid ▸ hyp⟩))
      · rintro ⟨⟨x, hx, hdest, hcontrib, hnk, hid⟩, hyp⟩
        refine ⟨x, Finset.mem_insert_of_mem hx, hdest, hcontrib, ?_, hid⟩
        intro hkk
        rcases killedIn_insert.mp hkk with hkk | hkk
        · exact hnk hkk
        · exact hyp (hid ▸ hkk.2.2)
    · rw [if_neg hdel]
      apply Finset.ext
      intro y
      rw [mem_canonAssigns, Finset.mem_insert, Finset.mem_sdiff, mem_canonAssigns]
      constructor
      · rintro ⟨x, hx, hdest, hcontrib, hnk, hid⟩
        rcases Finset.mem_insert.mp hx with rfl | hx
        · exact Or.inl hid.symm
        · refine Or.inr ⟨⟨x, hx, hdest, hcontrib, ?_, hid⟩, ?_⟩
          · rintro ⟨o', ho', hko⟩
            exact hnk ⟨o', Finset.mem_insert_of_mem ho', hko⟩
          · intro hyp
            exact hnk (killedIn_insert.mpr (Or.inr ⟨ha, by rw [hdest], hid ▸ hyp⟩))
      · rintro (rfl | ⟨⟨x, hx, hdest, hcontrib, hnk, hid⟩, hyp⟩)
        · exact ⟨o, Finset.mem_insert_self _ _, rfl, ⟨hdel, ha⟩, hnokill, rfl⟩
        · refine ⟨x, Finset.mem_insert_of_mem hx, hdest, hcontrib, ?_, hid⟩
          intro hkk
          rcases killedIn_insert.mp hkk with hkk | hkk
          · exact hnk hkk
          · exact hyp (hid ▸ hkk.2.2)
  · rw [if_neg hk]
    apply Finset.ext
    intro y
    rw [mem_canonAssigns, mem_canonAssigns]
    constructor
    · rintro ⟨x, hx, hdest, hcontrib, hnk, hid⟩
      rcases Finset.mem_insert.mp hx with rfl | hx
      · exact absurd (hdest ▸ hk) (fun h => h rfl)
      · refine ⟨x, hx, hdest, hcontrib, ?_, hid⟩
        rintro ⟨o', ho', hko⟩
        exact hnk ⟨o', Finset.mem_insert_of_mem ho', hko⟩
    · rintro ⟨x, hx, hdest, hcontrib, hnk, hid⟩
      refine ⟨x, Finset.mem_insert_of_mem hx, hdest, hcontrib, ?_, hid⟩
      intro hkk
      rcases killedIn_insert.mp hkk with hkk | hkk
      · exact hnk hkk
      · exact hk (hkk.2.1 ▸ hdest ▸ rfl)

theorem canonOpById_concat {L : List Op} {o : Op} (hfresh : o.id ∉ L.map Op.id) :
    canonOpById (L ++ [o]) = fun i => if i = o.id then some o else canonOpById L i := by
  funext i
  unfold canonOpById
  rw [List.find?_append]
  by_cases hi : i = o.id
  · subst hi
    have h1 : L.find? (fun x => x.id = o.id) = none := by
      rw [List.find?_eq_none]
      intro x hx
      simp only [decide_eq_true_eq]
      intro h
      exact hfresh (h ▸ List.mem_map_of_mem Op.id hx)
    rw [h1, if_pos rfl]
    simp [List.find?]
  · have h2 : [o].find? (fun x => x.id = i) = none := by
      rw [List.find?_eq_none]
      intro x hx
      simp only [List.mem_singleton] at hx
      subst hx
      simp only [decide_eq_true_eq]
      exact fun h => hi h.symm
    rw [h2, if_neg hi, Option.or_none]

theorem canonIncs_insert (o : Op) (T : Finset Op) :
    canonIncs (insert o T) =
      (if o.action = Action.inc then insert o (canonIncs T) else canonIncs T) := by
  unfold canonIncs
  rw [Finset.filter_insert]

theorem children_insert_isInsert {T : Finset Op} {o : Op} (ho : o.isInsert)
    (k : OpId × Key) :
    children (insert o T) k =
      (if (o.obj, o.key) = k then insert o.id (children T k) else children T k) := by
  unfold children
  rw [Finset.filter_insert]
  by_cases hk : (o.obj, o.key) = k
  · rw [if_pos ⟨ho, hk⟩, if_pos hk, Finset.image_insert]
  · rw [if_neg (fun h => hk h.2), if_neg hk]

theorem children_insert_not_isInsert {T : Finset Op} {o : Op} (ho : ¬ o.isInsert)
    (k : OpId × Key) :
    children (insert o T) k = children T k := by
  unfold children
  rw [Finset.filter_insert, if_neg (fun h => ho h.1)]

theorem id_not_mem_children {L : List Op} {o : Op} (hfresh : o.id ∉ L.map Op.id)
    (k : OpId × Key) : o.id ∉ children L.toFinset k := by
  intro h
  unfold children at h
  rcases Finset.mem_image.mp h with ⟨x, hx, hid⟩
  have : x ∈ L := List.mem_toFinset.mp (Finset.mem_filter.mp hx).1
  exact hfresh (hid ▸ List.mem_map_of_mem Op.id this)

theorem fresh_of_concat_nodup {L : List Op} {o : Op}
    (hND : ((L ++ [o]).map Op.id).Nodup) : o.id ∉ L.map Op.id := by
  rw [List.map_append] at hND
  intro h
  exact (List.disjoint_of_nodup_append hND) h (by simp)

theorem no_self_pred {L : List Op} {o : Op}
    (hND : ((L ++ [o]).map Op.id).Nodup)
    (hPB : PointsBack (L ++ [o])) :
    ∀ x ∈ L ++ [o], o.id ∉ x.pred := by
  have hfresh := fresh_of_concat_nodup hND
  intro x hx hp
  rcases List.mem_append.mp hx with hxL | hxo
  · rcases List.append_of_mem hxL with ⟨A, B, hAB⟩
    have hsplit : L ++ [o] = A ++ x :: (B ++ [o]) := by rw [hAB]; simp
    have hmem := hPB A x (B ++ [o]) hsplit o.id hp
    exact hfresh (by
      rw [hAB, List.map_append]
      exact List.mem_append_left _ hmem)
  · simp only [List.mem_singleton] at hxo
    subst hxo
    exact hfresh (hPB L x [] rfl x.id hp)

theorem not_killedIn_concat {L : List Op} {o : Op}
    (hND : ((L ++ [o]).map Op.id).Nodup)
    (hPB : PointsBack (L ++ [o])) :
    ¬ killedIn (L ++ [o]).toFinset o := by
  rintro ⟨o', ho', hk⟩
  exact no_self_pred hND hPB o' (List.mem_toFinset.mp ho') hk.2.2

theorem applyOp_canon {L : List Op} {o : Op} {s : OpSetState}
    (hc : OpsFieldsCanon L s)
    (hND : ((L ++ [o]).map Op.id).Nodup)
    (hPB : PointsBack (L ++ [o])) :
    OpsFieldsCanon (L ++ [o]) (applyOp s o) := by
  obtain ⟨hca, hco, hci, hcf⟩ := hc
  have hfresh : o.id ∉ L.map Op.id := fresh_of_concat_nodup hND
  have hfresh' : ∀ x ∈ L.toFinset, x.id ≠ o.id := fun x hx h =>
    hfresh (h ▸ List.mem_map_of_mem Op.id (List.mem_toFinset.mp hx))
  have hnokill : ¬ killedIn (insert o L.toFinset) o := by
    have h0 := not_killedIn_concat hND hPB
    rwa [toFinset_concat] at h0
  by_cases hinc : o.action = Action.inc
  · have happly : applyOp s o =
        { s with opById := fun i => if i = o.id then some o else s.opById i,
                 incs := insert o s.incs } := by
      unfold applyOp
      dsimp only
      rw [if_pos hinc]
    rw [happly]
    refine ⟨?_, ?_, ?_, ?_⟩
    · show s.assigns = canonAssigns (L ++ [o]).toFinset
      rw [toFinset_concat]
      funext k
      rw [canonAssigns_concat_inc hinc k]
      exact congrFun hca k
    · show (fun i => if i = o.id then some o else s.opById i) = canonOpById (L ++ [o])
      rw [canonOpById_concat hfresh, hco]
    · show insert o s.incs = canonIncs (L ++ [o]).toFinset
      rw [toFinset_concat, canonIncs_insert, if_pos hinc, hci]
    · show s.following = fun k => canonFollowing (L ++ [o]).toFinset k
      rw [toFinset_concat]
      funext k
      rw [congrFun hcf k]
      unfold canonFollowing
      rw [children_insert_not_isInsert (fun h => h.2.2 hinc) k]
  · by_cases hdel : o.action = Action.del
    · have happly : applyOp s o =
          { s with opById := fun i => if i = o.id then some o else s.opById i,
                   assigns := fun k =>
                     if k = o.dest then s.assigns k \ o.pred else s.assigns k } := by
        unfold applyOp
        dsimp only
        rw [if_neg hinc, if_pos hdel]
      rw [happly]
      refine ⟨?_, ?_, ?_, ?_⟩
      · show (fun k => if k = o.dest then s.assigns k \ o.pred else s.assigns k)
            = canonAssigns (L ++ [o]).toFinset
        rw [toFinset_concat]
        funext k
        rw [canonAssigns_concat_other hinc hfresh' hnokill k]
        by_cases hk : k = o.dest
        · rw [if_pos hk, if_pos hk, if_pos hdel, hca]
        · rw [if_neg hk, if_neg hk, hca]
      · show (fun i => if i = o.id then some o else s.opById i) = canonOpById (L ++ [o])
        rw [canonOpById_concat hfresh, hco]
      · show s.incs = canonIncs (L ++ [o]).toFinset
        rw [toFinset_concat, canonIncs_insert, if_neg hinc, hci]
      · show s.following = fun k => canonFollowing (L ++ [o]).toFinset k
        rw [toFinset_concat]
        funext k
        rw [congrFun hcf k]
        unfold canonFollowing
        rw [children_insert_not_isInsert (fun h => h.2.1 hdel) k]
    · by_cases hins : o.insert = true
      · have ho : o.isInsert := ⟨hins, hdel, hinc⟩
        have happly : applyOp s o =
            { s with opById := fun i => if i = o.id then some o else s.opById i,
                     assigns := fun k =>
                       if k = o.dest then insert o.id (s.assigns k \ o.pred)
                       else s.assigns k,
                     following := fun k =>
                       if k = (o.obj, o.key) then insertDesc o.id (s.following k)
                       else s.following k } := by
          unfold applyOp
          dsimp only
          rw [if_neg hinc, if_neg hdel, if_pos hins]
        rw [happly]
        refine ⟨?_, ?_, ?_, ?_⟩
        · show (fun k => if k = o.dest then insert o.id (s.assigns k \ o.pred)
              else s.assigns k) = canonAssigns (L ++ [o]).toFinset
          rw [toFinset_concat]
          funext k
          rw [canonAssigns_concat_other hinc hfresh' hnokill k]
          by_cases hk : k = o.dest
          · rw [if_pos hk, if_pos hk, if_neg hdel, hca]
          · rw [if_neg hk, if_neg hk, hca]
        · show (fun i => if i = o.id then some o else s.opById i) = canonOpById (L ++ [o])
          rw [canonOpById_concat hfresh, hco]
        · show s.incs = canonIncs (L ++ [o]).toFinset
          rw [toFinset_concat, canonIncs_insert, if_neg hinc, hci]
        · show (fun k => if k = (o.obj, o.key) then insertDesc o.id (s.following k)
              else s.following k) = fun k => canonFollowing (L ++ [o]).toFinset k
          rw [toFinset_concat]
          funext k
          unfold canonFollowing
          rw [children_insert_isInsert ho k]
          by_cases hk : k = (o.obj, o.key)
          · rw [if_pos hk, if_pos hk.symm, congrFun hcf k]
            unfold canonFollowing
            exact insertDesc_sortDesc (id_not_mem_children hfresh k)
          · rw [if_neg hk, if_neg (fun h => hk h.symm), congrFun hcf k]
            rfl
      · have happly : applyOp s o =
            { s with opById := fun i => if i = o.id then some o else s.opById i,
                     assigns := fun k =>
                       if k = o.dest then insert o.id (s.assigns k \ o.pred)
                       else s.assigns k } := by
          unfold applyOp
          dsimp only
          rw [if_neg hinc, if_neg hdel, if_neg hins]
        rw [happly]
        refine ⟨?_, ?_, ?_, ?_⟩
        · show (fun k => if k = o.dest then insert o.id (s.assigns k \ o.pred)
              else s.assigns k) = canonAssigns (L ++ [o]).toFinset
          rw [toFinset_concat]
          funext k
          rw [canonAssigns_concat_other hinc hfresh' hnokill k]
          by_cases hk : k = o.dest
          · rw [if_pos hk, if_pos hk, if_neg hdel, hca]
          · rw [if_neg hk, if_neg hk, hca]
        · show (fun i => if i = o.id then some o else s.opById i) = canonOpById (L ++ [o])
          rw [canonOpById_concat hfresh, hco]
        · show s.incs = canonIncs (L ++ [o]).toFinset
          rw [toFinset_concat, canonIncs_insert, if_neg hinc, hci]
        · show s.following = fun k => canonFollowing (L ++ [o]).toFinset k
          rw [toFinset_concat]
          funext k
          rw [congrFun hcf k]
          unfold canonFollowing
          rw [children_insert_not_isInsert (fun h => hins h.1) k]

theorem foldl_applyOp_canon :
    ∀ (ops L : List Op) (s : OpSetState),
      OpsFieldsCanon L s →
      ((L ++ ops).map Op.id).Nodup →
      PointsBack (L ++ ops) →
      OpsFieldsCanon (L ++ ops) (ops.foldl applyOp s) ∧
      (ops.foldl applyOp s).hashes = s.hashes ∧
      (ops.foldl applyOp s).byHash = s.byHash ∧
      (ops.foldl applyOp s).statesByActor = s.statesByActor ∧
      (ops.foldl applyOp s).queue = s.queue := by
  intro ops
  induction ops with
  | nil =>
      intro L s hc hND hPB
      rw [List.foldl_nil]
      exact ⟨by simpa using hc, rfl, rfl, rfl, rfl⟩
  | cons o rest ih =>
      intro L s hc hND hPB
      have hassoc : L ++ o :: rest = (L ++ [o]) ++ rest := by simp
      rw [hassoc] at hND hPB ⊢
      have hND1 : ((L ++ [o]).map Op.id).Nodup := by
        rw [List.map_append] at hND
        exact (List.nodup_append.mp hND).1
      have hPB1 : PointsBack (L ++ [o]) := pointsBack_prefix hPB
      have hstep := applyOp_canon hc hND1 hPB1
      have hrec := ih (L ++ [o]) (applyOp s o) hstep hND hPB
      rw [List.foldl_cons]
      obtain ⟨hfix1, hfix2, hfix3, hfix4⟩ := applyOp_fixed s o
      exact ⟨hrec.1, hrec.2.1.trans hfix1, hrec.2.2.1.trans hfix2,
        hrec.2.2.2.1.trans hfix3, hrec.2.2.2.2.trans hfix4⟩

theorem toFinset_concat_hash (L : List Hash) (h : Hash) :
    (L ++ [h]).toFinset = insert h L.toFinset := by
  ext x
  simp [or_comm]

theorem canonByHash_concat {hfn : Change → Hash} {l : List Change} {c : Change}
    (hfresh : hfn c ∉ l.map hfn) :
    (fun h => (l ++ [c]).find? (fun x => hfn x = h))
      = fun h => if h = hfn c then some c else l.find? (fun x => hfn x = h) := by
  funext h
  rw [List.find?_append]
  by_cases hh : h = hfn c
  · subst hh
    have h1 : l.find? (fun x => hfn x = hfn c) = none := by
      rw [List.find?_eq_none]
      intro x hx
      simp only [decide_eq_true_eq]
      intro hcon
      exact hfresh (hcon ▸ List.mem_map_of_mem hfn hx)
    rw [h1, if_pos rfl]
    simp [List.find?]
  · have h2 : [c].find? (fun x => hfn x = h) = none := by
      rw [List.find?_eq_none]
      intro x hx
      simp only [List.mem_singleton] at hx
      subst hx
      simp only [decide_eq_true_eq]
      exact fun hcon => hh hcon.symm
    rw [h2, if_neg hh, Option.or_none]

theorem sort_insert_max {α : Type} [LinearOrder α] {s : Finset α} {x : α}
    (hx : ∀ y ∈ s, y < x) :
    Finset.sort (· ≤ ·) (insert x s) = Finset.sort (· ≤ ·) s ++ [x] := by
  have hxs : x ∉ s := fun h => lt_irrefl x (hx x h)
  refine List.eq_of_perm_of_sorted ?_ (Finset.sort_sorted _ _) ?_
  · refine (Finset.sort_perm_toList _ _).trans
      ((Finset.toList_insert hxs).trans ?_)
    refine (((Finset.sort_perm_toList (· ≤ ·) s).symm).cons x).trans ?_
    exact (List.perm_append_singleton x (Finset.sort (· ≤ ·) s)).symm
  · rw [List.Sorted, List.pairwise_append]
    refine ⟨Finset.sort_sorted _ _, List.pairwise_singleton _ x, ?_⟩
    intro a ha b hb
    rw [List.mem_singleton] at hb
    subst hb
    exact le_of_lt (hx a (Finset.mem_sort (α := α) (· ≤ ·) |>.mp ha))

theorem actorHashes_length {hfn : Change → Hash} {A : List Change}
    (hnodup : (A.map hfn).Nodup) (a : String) :
    (actorHashes hfn A a).length = (A.filter (fun x => x.actor = a)).length := by
  unfold actorHashes
  rw [List.length_map, Finset.length_sort]
  unfold actorPairs
  rw [List.toFinset_card_of_nodup, List.length_map]
  refine List.Nodup.map_on ?_ ((nodup_of_map_nodup hnodup).filter _)
  intro x hx y hy hxy
  have h2 : hfn x = hfn y := congrArg (fun p => (ofLex p).2) hxy
  exact hash_inj hnodup x (List.mem_of_mem_filter hx) y (List.mem_of_mem_filter hy) h2

theorem actorHashes_concat {hfn : Change → Hash} {l : List Change} {c : Change}
    (hfresh : hfn c ∉ l.map hfn)
    (hseqlt : ∀ x ∈ l, x.actor = c.actor → x.seq < c.seq) :
    actorHashes hfn (l ++ [c])
      = fun a => if a = c.actor then actorHashes hfn l a ++ [hfn c]
                 else actorHashes hfn l a := by
  funext a
  unfold actorHashes actorPairs
  rw [List.filter_append]
  by_cases ha : a = c.actor
  · rw [if_pos ha]
    have hfc : [c].filter (fun x => x.actor = a) = [c] := by
      have hca : c.actor = a := ha.symm
      simp [hca]
    rw [hfc]
    have hpair : ((l.filter (fun x => x.actor = a)).map
          (fun x => toLex (x.seq, hfn x)) ++ [c].map (fun x => toLex (x.seq, hfn x))).toFinset
        = insert (toLex (c.seq, hfn c))
            ((l.filter (fun x => x.actor = a)).map (fun x => toLex (x.seq, hfn x))).toFinset := by
      rw [List.map_singleton]
      ext p
      simp [or_comm]
    rw [List.map_append, hpair]
    have hmax : ∀ p ∈ ((l.filter (fun x => x.actor = a)).map
        (fun x => toLex (x.seq, hfn x))).toFinset, p < toLex (c.seq, hfn c) := by
      intro p hp
      rw [List.mem_toFinset] at hp
      rcases List.mem_map.mp hp with ⟨x, hx, rfl⟩
      have hx' := List.mem_filter.mp hx
      have hxa : x.actor = a := by simpa using hx'.2
      rw [Prod.Lex.lt_iff]
      exact Or.inl (hseqlt x hx'.1 (hxa.trans ha))
    rw [sort_insert_max hmax, List.map_append]
    rfl
  · rw [if_neg ha]
    have hfc : [c].filter (fun x => x.actor = a) = [] := by
      have hne : ¬ (c.actor = a) := fun h => ha h.symm
      simp [hne]
    rw [hfc, List.append_nil]

theorem applyReady_canon {hfn : Change → Hash} {l : List Change} {c : Change}
    (hND : ((opsOf (l ++ [c])).map Op.id).Nodup)
    (hPB : PointsBack (opsOf (l ++ [c])))
    (hfreshc : hfn c ∉ l.map hfn)
    (hseqlt : ∀ x ∈ l, x.actor = c.actor → x.seq < c.seq) :
    applyReady hfn (canonState hfn l) c = canonState hfn (l ++ [c]) := by
  have hops : opsOf (l ++ [c]) = opsOf l ++ c.ops := by
    rw [opsOf_append]
    simp [opsOf]
  rw [hops] at hND hPB
  unfold applyReady
  set s₁ : OpSetState :=
    { canonState hfn l with
      hashes := insert (hfn c) (canonState hfn l).hashes
      byHash := fun h => if h = hfn c then some c else (canonState hfn l).byHash h
      statesByActor := fun a =>
        if a = c.actor then (canonState hfn l).statesByActor a ++ [hfn c]
        else (canonState hfn l).statesByActor a } with hs₁
  have hc₁ : OpsFieldsCanon (opsOf l) s₁ := ⟨rfl, rfl, rfl, rfl⟩
  obtain ⟨hcanon, hh, hb, hsa, hq⟩ := foldl_applyOp_canon c.ops (opsOf l) s₁ hc₁ hND hPB
  obtain ⟨hc1, hc2, hc3, hc4⟩ := hcanon
  have hopseq : opsOf l ++ c.ops = opsOf (l ++ [c]) := hops.symm
  apply OpSetState.ext
  · rw [hh]
    show insert (hfn c) (l.map hfn).toFinset = ((l ++ [c]).map hfn).toFinset
    rw [List.map_append, List.map_singleton, toFinset_concat_hash]
  · rw [hb]
    show (fun h => if h = hfn c then some c else l.find? (fun x => hfn x = h))
      = (canonState hfn (l ++ [c])).byHash
    rw [show (canonState hfn (l ++ [c])).byHash
        = fun h => (l ++ [c]).find? (fun x => hfn x = h) from rfl]
    rw [canonByHash_concat hfreshc]
  · rw [hsa]
    show (fun a => if a = c.actor then actorHashes hfn l a ++ [hfn c]
        else actorHashes hfn l a) = actorHashes hfn (l ++ [c])
    rw [actorHashes_concat hfreshc hseqlt]
  · rw [hopseq] at hc1
    exact hc1
  · rw [hopseq] at hc2
    exact hc2
  · rw [hopseq] at hc3
    exact hc3
  · rw [hopseq] at hc4
    exact hc4
  · rw [hq]
    rfl

theorem exceptBind_ok {α β : Type} (a : α) (f : α → Except String β) :
    (Except.ok a >>= f) = f a := rfl

theorem canonState_nil (hfn : Change → Hash) : canonState hfn [] = initState := by
  apply OpSetState.ext
  · show (([] : List Change).map hfn).toFinset = ∅
    rfl
  · funext h
    rfl
  · funext a
    show actorHashes hfn [] a = []
    unfold actorHashes actorPairs
    simp
  · funext k
    show canonAssigns (opsOf []).toFinset k = ∅
    unfold canonAssigns
    rfl
  · funext i
    rfl
  · show canonIncs (opsOf []).toFinset = ∅
    rfl
  · funext k
    show canonFollowing (opsOf []).toFinset k = []
    unfold canonFollowing children sortDesc
    rw [show (opsOf ([] : List Change)).toFinset = ∅ from rfl]
    simp
  · rfl

theorem filter_congr_not_mem {hfn : Change → Hash} {Q A : List Change} {c : Change}
    (hQc : ∀ x ∈ Q, hfn x ≠ hfn c) :
    Q.filter (fun x => ¬ hfn x ∈ (A ++ [c]).map hfn)
      = Q.filter (fun x => ¬ hfn x ∈ A.map hfn) := by
  apply List.filter_congr
  intro x hx
  simp only [List.map_append, List.map_singleton, List.mem_append,
    List.mem_singleton, decide_eq_decide]
  constructor
  · intro h h'
    exact h (Or.inl h')
  · intro h h'
    rcases h' with h' | h'
    · exact h h'
    · exact hQc x hx h'

theorem addChanges_canon (hfn : Change → Hash) :
    ∀ (Q A : List Change),
      ValidSet hfn (A ++ Q.filter (fun x => ¬ hfn x ∈ A.map hfn)) →
      depsOK hfn ∅ (A ++ Q.filter (fun x => ¬ hfn x ∈ A.map hfn)) →
      (Q.map hfn).Nodup →
      addChanges hfn (canonState hfn A) Q =
        Except.ok (canonState hfn (A ++ Q.filter (fun x => ¬ hfn x ∈ A.map hfn))) := by
  intro Q
  induction Q with
  | nil =>
      intro A hv hd hn
      show Except.ok (canonState hfn A) = _
      rw [List.filter_nil, List.append_nil]
  | cons c Q ih =>
      intro A hv hd hn
      have hn' : (Q.map hfn).Nodup := by
        rw [List.map_cons, List.nodup_cons] at hn
        exact hn.2
      have hcQ : hfn c ∉ Q.map hfn := by
        rw [List.map_cons, List.nodup_cons] at hn
        exact hn.1
      show ((c :: Q).foldlM (addChange hfn) (canonState hfn A)) = _
      rw [List.foldlM_cons]
      by_cases hshared : hfn c ∈ A.map hfn
      · have hguard : hfn c ∈ (canonState hfn A).hashes := List.mem_toFinset.mpr hshared
        have hstep : addChange hfn (canonState hfn A) c = Except.ok (canonState hfn A) := by
          unfold addChange
          rw [if_pos hguard]
        rw [hstep, exceptBind_ok]
        have hfilter : (c :: Q).filter (fun x => ¬ hfn x ∈ A.map hfn)
            = Q.filter (fun x => ¬ hfn x ∈ A.map hfn) := by
          rw [List.filter_cons]
          simp [hshared]
        rw [hfilter] at hv hd
        rw [hfilter]
        exact ih A hv hd hn'
      · have hfilterc : (c :: Q).filter (fun x => ¬ hfn x ∈ A.map hfn)
            = c :: Q.filter (fun x => ¬ hfn x ∈ A.map hfn) := by
          rw [List.filter_cons]
          simp [hshared]
        rw [hfilterc] at hv hd
        rw [hfilterc]
        have hAnodup : (A.map hfn).Nodup := by
          have h0 := hv.1
          rw [List.map_append] at h0
          exact (List.nodup_append.mp h0).1
        have g1 : hfn c ∉ (canonState hfn A).hashes := fun h =>
          hshared (List.mem_toFinset.mp h)
        have g2 : depsSatisfied (canonState hfn A) c = true := by
          rw [depsSatisfied, List.all_eq_true]
          intro d hd'
          rcases depsOK_split hd rfl d hd' with hmem | hmem
          · exact absurd hmem (by simp)
          · exact decide_eq_true (List.mem_toFinset.mpr hmem)
        obtain ⟨hseqlt, hseqeq⟩ := seq_facts_at_split hv hd A c _ rfl
        have g3 : c.seq = ((canonState hfn A).statesByActor c.actor).length + 1 := by
          show c.seq = (actorHashes hfn A c.actor).length + 1
          rw [actorHashes_length hAnodup]
          exact hseqeq
        have hstep : addChange hfn (canonState hfn A) c
            = Except.ok (applyReady hfn (canonState hfn A) c) := by
          unfold addChange
          rw [if_neg g1, if_neg (by simp [g2]), if_neg (not_not_intro g3)]
          rfl
        have heq : A ++ c :: Q.filter (fun x => ¬ hfn x ∈ A.map hfn)
            = (A ++ [c]) ++ Q.filter (fun x => ¬ hfn x ∈ A.map hfn) := by simp
        have hops_nd : ((opsOf (A ++ [c])).map Op.id).Nodup := by
          have h0 := hv.2.1
          rw [heq, opsOf_append, List.map_append] at h0
          exact (List.nodup_append.mp h0).1
        have hops_pb : PointsBack (opsOf (A ++ [c])) := by
          have h0 := pointsBack_opsOf hv hd
          rw [heq, opsOf_append] at h0
          exact pointsBack_prefix h0
        have happlyr := applyReady_canon hops_nd hops_pb hshared hseqlt
        rw [hstep, exceptBind_ok, happlyr]
        have heqM : (A ++ [c]) ++ Q.filter (fun x => ¬ hfn x ∈ (A ++ [c]).map hfn)
            = A ++ c :: Q.filter (fun x => ¬ hfn x ∈ A.map hfn) := by
          rw [filter_congr_not_mem (by
            intro x hx h
            apply hcQ
            rw [← h]
            exact List.mem_map_of_mem hfn hx)]
          simp
        have hv' : ValidSet hfn ((A ++ [c]) ++
            Q.filter (fun x => ¬ hfn x ∈ (A ++ [c]).map hfn)) := by
          rw [heqM]
          exact hv
        have hd' : depsOK hfn ∅ ((A ++ [c]) ++
            Q.filter (fun x => ¬ hfn x ∈ (A ++ [c]).map hfn)) := by
          rw [heqM]
          exact hd
        have hres := ih (A ++ [c]) hv' hd' hn'
        show addChanges hfn (canonState hfn (A ++ [c])) Q = _
        rw [hres, heqM]

theorem opsOf_perm {l₁ l₂ : List Change} (hp : List.Perm l₁ l₂) :
    List.Perm (opsOf l₁) (opsOf l₂) :=
  List.Perm.flatMap_right Change.ops hp

theorem ancB_congr {hfn : Change → Hash} {l₁ l₂ : List Change}
    (hp : List.Perm l₁ l₂) :
    ∀ (n : Nat) (c c' : Change), ancB hfn l₁ n c c' = ancB hfn l₂ n c c' := by
  intro n
  induction n with
  | zero => intro c c'; rfl
  | succ n ih =>
      intro c c'
      simp only [ancB]
      apply Bool.coe_iff_coe.mp
      simp only [Bool.or_eq_true, List.any_eq_true, Bool.and_eq_true]
      constructor
      · rintro (h | ⟨m, hm, h1, h2⟩)
        · exact Or.inl h
        · exact Or.inr ⟨m, hp.subset hm, h1, by rw [← ih c m]; exact h2⟩
      · rintro (h | ⟨m, hm, h1, h2⟩)
        · exact Or.inl h
        · exact Or.inr ⟨m, hp.symm.subset hm, h1, by rw [ih c m]; exact h2⟩

theorem ancOpIds_mem_congr {hfn : Change → Hash} {l₁ l₂ : List Change}
    (hp : List.Perm l₁ l₂) (c' : Change) (x : OpId) :
    x ∈ ancOpIds hfn l₁ c' ↔ x ∈ ancOpIds hfn l₂ c' := by
  unfold ancOpIds
  simp only [List.mem_flatMap, List.mem_filter]
  constructor
  · rintro ⟨c, ⟨hc, hq⟩, hx⟩
    refine ⟨c, ⟨hp.subset hc, ?_⟩, hx⟩
    rw [← hp.length_eq, ← ancB_congr hp]
    exact hq
  · rintro ⟨c, ⟨hc, hq⟩, hx⟩
    refine ⟨c, ⟨hp.symm.subset hc, ?_⟩, hx⟩
    rw [hp.length_eq, ancB_congr hp]
    exact hq

theorem predSeqOps_congr :
    ∀ (ops : List Op) {avail₁ avail₂ : List OpId},
      (∀ x, x ∈ avail₁ ↔ x ∈ avail₂) →
      predSeqOps avail₁ ops = predSeqOps avail₂ ops := by
  intro ops
  induction ops with
  | nil => intro _ _ _; rfl
  | cons o l ih =>
      intro avail₁ avail₂ h
      simp only [predSeqOps]
      have h1 : decide (∀ p ∈ o.pred, p ∈ avail₁)
          = decide (∀ p ∈ o.pred, p ∈ avail₂) := by
        apply decide_eq_decide.mpr
        constructor
        · intro hh p hpp
          exact (h p).mp (hh p hpp)
        · intro hh p hpp
          exact (h p).mpr (hh p hpp)
      have h2 : predSeqOps (avail₁ ++ [o.id]) l = predSeqOps (avail₂ ++ [o.id]) l := by
        apply ih
        intro x
        simp only [List.mem_append]
        exact or_congr (h x) Iff.rfl
      rw [h1, h2]

theorem predsCausal_perm {hfn : Change → Hash} {l₁ l₂ : List Change}
    (hp : List.Perm l₁ l₂) (h : predsCausal hfn l₁) : predsCausal hfn l₂ := by
  intro c' hc'
  have h0 := h c' (hp.symm.subset hc')
  rw [predSeqOps_congr c'.ops (fun x => (ancOpIds_mem_congr hp c' x).symm)]
  exact h0

theorem ValidSet_perm {hfn : Change → Hash} {l₁ l₂ : List Change}
    (hp : List.Perm l₁ l₂) (hv : ValidSet hfn l₁) : ValidSet hfn l₂ := by
  obtain ⟨h1, h2, h3, h4, h5, h6⟩ := hv
  refine ⟨(hp.map hfn).nodup_iff.mp h1,
    ((opsOf_perm hp).map Op.id).nodup_iff.mp h2,
    fun c hc => h3 c (hp.symm.subset hc),
    fun c hc c' hc' => h4 c (hp.symm.subset hc) c' (hp.symm.subset hc'),
    fun c hc hseq => ?_, predsCausal_perm hp h6⟩
  obtain ⟨c', hc', ha, hs, hd⟩ := h5 c (hp.symm.subset hc) hseq
  exact ⟨c', hp.subset hc', ha, hs, hd⟩

theorem canonState_perm {hfn : Change → Hash} {l₁ l₂ : List Change}
    (hp : List.Perm l₁ l₂)
    (hnd : (l₁.map hfn).Nodup)
    (hopnd : ((opsOf l₁).map Op.id).Nodup) :
    canonState hfn l₁ = canonState hfn l₂ := by
  have hops := opsOf_perm hp
  have hopsF : (opsOf l₁).toFinset = (opsOf l₂).toFinset :=
    List.toFinset_eq_of_perm _ _ hops
  apply OpSetState.ext
  · show (l₁.map hfn).toFinset = (l₂.map hfn).toFinset
    exact List.toFinset_eq_of_perm _ _ (hp.map hfn)
  · funext h
    show l₁.find? (fun c => hfn c = h) = l₂.find? (fun c => hfn c = h)
    apply find?_eq_of_unique hp
    intro x hx y hy px py
    exact hash_inj hnd x hx y hy
      ((of_decide_eq_true px).trans (of_decide_eq_true py).symm)
  · funext a
    show actorHashes hfn l₁ a = actorHashes hfn l₂ a
    unfold actorHashes actorPairs
    rw [List.toFinset_eq_of_perm _ _ ((hp.filter _).map _)]
  · show canonAssigns (opsOf l₁).toFinset = canonAssigns (opsOf l₂).toFinset
    rw [hopsF]
  · show canonOpById (opsOf l₁) = canonOpById (opsOf l₂)
    funext i
    apply find?_eq_of_unique hops
    intro x hx y hy px py
    apply List.inj_on_of_nodup_map hopnd hx hy
    rw [of_decide_eq_true px, of_decide_eq_true py]
  · show canonIncs (opsOf l₁).toFinset = canonIncs (opsOf l₂).toFinset
    rw [hopsF]
  · show (fun k => canonFollowing (opsOf l₁).toFinset k)
      = fun k => canonFollowing (opsOf l₂).toFinset k
    rw [hopsF]
  · rfl

theorem addChanges_init_canon (hfn : Change → Hash) (l : List Change)
    (hv : ValidSet hfn l) (hd : depsOK hfn ∅ l) :
    addChanges hfn initState l = Except.ok (canonState hfn l) := by
  have hfl : l.filter (fun x => ¬ hfn x ∈ (([] : List Change).map hfn)) = l :=
    List.filter_eq_self.mpr (fun a _ => by simp)
  have h0 := addChanges_canon hfn l []
    (by rw [List.nil_append, hfl]; exact hv)
    (by rw [List.nil_append, hfl]; exact hd) hv.1
  rw [canonState_nil, List.nil_append, hfl] at h0
  exact h0

theorem extractFirst_eq_none {p : Change → Bool} :
    ∀ {l : List Change}, extractFirst p l = none → ∀ x ∈ l, p x = false := by
  intro l
  induction l with
  | nil => intro _ x hx; cases hx
  | cons c t ih =>
      intro h x hx
      rw [extractFirst] at h
      by_cases hpc : p c = true
      · rw [if_pos hpc] at h
        cases h
      · have hpc' : p c = false := by
          cases hq : p c
          · rfl
          · exact absurd hq hpc
        rw [if_neg hpc] at h
        rcases List.mem_cons.mp hx with rfl | hx
        · exact hpc'
        · apply ih ?_ x hx
          cases he : extractFirst p t with
          | none => rfl
          | some pr =>
              rw [he] at h
              cases h

theorem extractFirst_some {p : Change → Bool} :
    ∀ {l : List Change} {c : Change} {rest : List Change},
      extractFirst p l = some (c, rest) →
      p c = true ∧ List.Perm l (c :: rest) := by
  intro l
  induction l with
  | nil => intro c rest h; cases h
  | cons a t ih =>
      intro c rest h
      rw [extractFirst] at h
      by_cases hpa : p a = true
      · rw [if_pos hpa] at h
        have h' : a = c ∧ t = rest := by simpa using h
        obtain ⟨rfl, rfl⟩ := h'
        exact ⟨hpa, List.Perm.refl _⟩
      · rw [if_neg hpa] at h
        cases he : extractFirst p t with
        | none =>
            rw [he] at h
            cases h
        | some pr =>
            obtain ⟨c', l'⟩ := pr
            rw [he] at h
            have h' : c' = c ∧ a :: l' = rest := by simpa using h
            obtain ⟨rfl, rfl⟩ := h'
            obtain ⟨hp, hperm⟩ := ih he
            exact ⟨hp, (hperm.cons a).trans (List.Perm.swap _ _ _)⟩

theorem depsOK_erase {hfn : Change → Hash} :
    ∀ {P : List Change} {seen : Finset Hash} {c : Change} {R : List Change},
      depsOK hfn seen (P ++ c :: R) → depsOK hfn (insert (hfn c) seen) (P ++ R) := by
  intro P
  induction P with
  | nil =>
      intro seen c R h
      exact h.2
  | cons a P ih =>
      intro seen c R h
      obtain ⟨h1, h2⟩ := h
      refine ⟨fun d hd => Finset.mem_insert_of_mem (h1 d hd), ?_⟩
      rw [Finset.Insert.comm]
      exact ih h2

theorem topoSort_spec {hfn : Change → Hash} :
    ∀ (n : Nat) (emitted : Finset Hash) (rem L : List Change),
      rem.length ≤ n → List.Perm L rem → depsOK hfn emitted L →
      List.Perm (topoSort hfn n emitted rem) rem ∧
      depsOK hfn emitted (topoSort hfn n emitted rem) := by
  intro n
  induction n with
  | zero =>
      intro emitted rem L hlen hperm _
      have hnil : rem = [] := List.length_eq_zero.mp (Nat.le_zero.mp hlen)
      subst hnil
      exact ⟨List.Perm.refl _, trivial⟩
  | succ n ih =>
      intro emitted rem L hlen hperm hdeps
      cases L with
      | nil =>
          have hnil : rem = [] := hperm.symm.eq_nil
          subst hnil
          exact ⟨List.Perm.refl _, trivial⟩
      | cons c₀ L' =>
          have hc₀deps : ∀ d ∈ c₀.deps, d ∈ emitted := hdeps.1
          have hc₀rem : c₀ ∈ rem := hperm.subset (List.mem_cons_self _ _)
          cases hstep : topoStep emitted rem with
          | none =>
              exfalso
              have hfalse := extractFirst_eq_none hstep c₀ hc₀rem
              have htrue : c₀.deps.all (fun d => decide (d ∈ emitted)) = true := by
                rw [List.all_eq_true]
                intro d hd
                exact decide_eq_true (hc₀deps d hd)
              rw [htrue] at hfalse
              cases hfalse
          | some pr =>
              obtain ⟨c, rest⟩ := pr
              obtain ⟨hpc, hpermc⟩ := extractFirst_some hstep
              have hcL : c ∈ c₀ :: L' :=
                hperm.symm.subset (hpermc.symm.subset (List.mem_cons_self _ _))
              obtain ⟨P, R, hPR⟩ := List.append_of_mem hcL
              have hdeps2 : depsOK hfn emitted (P ++ c :: R) := by
                rw [← hPR]
                exact hdeps
              have hperm2 : List.Perm (P ++ c :: R) rem := by
                rw [← hPR]
                exact hperm
              have hdeps' : depsOK hfn (insert (hfn c) emitted) (P ++ R) :=
                depsOK_erase hdeps2
              have hpermPR : List.Perm (P ++ R) rest := by
                have h1 : List.Perm (c :: (P ++ R)) (c :: rest) :=
                  (List.perm_middle.symm.trans hperm2).trans hpermc
                exact h1.cons_inv
              have hrestlen : rest.length ≤ n := by
                have hlr := hpermc.length_eq
                rw [List.length_cons] at hlr
                omega
              obtain ⟨ihp, ihd⟩ :=
                ih (insert (hfn c) emitted) rest (P ++ R) hrestlen hpermPR hdeps'
              have hunf : topoSort hfn (n + 1) emitted rem
                  = c :: topoSort hfn n (insert (hfn c) emitted) rest := by
                simp only [topoSort]
                rw [hstep]
              constructor
              · rw [hunf]
                exact (ihp.cons c).trans hpermc.symm
              · rw [hunf]
                refine ⟨fun d hd => ?_, ihd⟩
                exact of_decide_eq_true (List.all_eq_true.mp hpc d hd)

theorem find?_hash_self {hfn : Change → Hash} {l : List Change}
    (hnd : (l.map hfn).Nodup) {c : Change} (hc : c ∈ l) :
    l.find? (fun x => hfn x = hfn c) = some c := by
  cases hfind : l.find? (fun x => hfn x = hfn c) with
  | none =>
      rw [List.find?_eq_none] at hfind
      exact absurd (hfind c hc) (by simp)
  | some y =>
      have hy := List.find?_some hfind
      have hym := List.mem_of_find?_eq_some hfind
      rw [hash_inj hnd y hym c hc (of_decide_eq_true hy)]

theorem filterMap_find?_self {hfn : Change → Hash} {l : List Change}
    (hnd : (l.map hfn).Nodup) :
    ∀ {l' : List Change}, (∀ c ∈ l', c ∈ l) →
      l'.filterMap (fun c => l.find? (fun x => hfn x = hfn c)) = l' := by
  intro l'
  induction l' with
  | nil => intro _; rfl
  | cons c t ih =>
      intro h
      rw [List.filterMap_cons, find?_hash_self hnd (h c (List.mem_cons_self _ _)),
        ih (fun x hx => h x (List.mem_cons_of_mem _ hx))]

theorem changesByHash_canon_perm {hfn : Change → Hash} {l : List Change}
    (hnd : (l.map hfn).Nodup) :
    List.Perm (changesByHash (canonState hfn l)) l := by
  show List.Perm ((Finset.sort (· ≤ ·) ((l.map hfn).toFinset)).filterMap
    (fun h => l.find? (fun c => hfn c = h))) l
  have hsort : List.Perm (Finset.sort (· ≤ ·) ((l.map hfn).toFinset)) (l.map hfn) :=
    (Finset.sort_perm_toList _ _).trans (List.toFinset_toList hnd)
  refine (hsort.filterMap _).trans ?_
  rw [List.filterMap_map]
  show List.Perm (l.filterMap (fun c => l.find? (fun x => hfn x = hfn c))) l
  rw [filterMap_find?_self hnd (fun c hc => hc)]

theorem getAllChanges_spec {hfn : Change → Hash} {l : List Change}
    (hnd : (l.map hfn).Nodup) (hd : depsOK hfn ∅ l) :
    List.Perm (getAllChanges hfn (canonState hfn l)) l ∧
    depsOK hfn ∅ (getAllChanges hfn (canonState hfn l)) := by
  have hcb : List.Perm (changesByHash (canonState hfn l)) l :=
    changesByHash_canon_perm hnd
  obtain ⟨h1, h2⟩ := topoSort_spec (changesByHash (canonState hfn l)).length ∅
    (changesByHash (canonState hfn l)) l (le_refl _) hcb.symm hd
  exact ⟨h1.trans hcb, h2⟩

theorem depsOK_filter {hfn : Change → Hash} {p : Change → Bool} :
    ∀ {G : List Change} {S T : Finset Hash}, depsOK hfn S G →
      (∀ x ∈ S, x ∈ T) →
      (∀ c ∈ G, p c = false → hfn c ∈ T) →
      depsOK hfn T (G.filter p) := by
  intro G
  induction G with
  | nil => intro S T _ _ _; trivial
  | cons c G ih =>
      intro S T h hST hdrop
      obtain ⟨h1, h2⟩ := h
      rw [List.filter_cons]
      cases hpc : p c with
      | true =>
          rw [if_pos rfl]
          refine ⟨fun d hd => hST _ (h1 d hd), ?_⟩
          refine ih h2 ?_ ?_
          · intro x hx
            rcases Finset.mem_insert.mp hx with rfl | hx
            · exact Finset.mem_insert_self _ _
            · exact Finset.mem_insert_of_mem (hST x hx)
          · intro c' hc' hp'
            exact Finset.mem_insert_of_mem
              (hdrop c' (List.mem_cons_of_mem _ hc') hp')
      | false =>
          rw [if_neg (fun hcon => Bool.noConfusion hcon)]
          refine ih h2 ?_ ?_
          · intro x hx
            rcases Finset.mem_insert.mp hx with rfl | hx
            · exact hdrop c (List.mem_cons_self _ _) hpc
            · exact hST x hx
          · intro c' hc' hp'
            exact hdrop c' (List.mem_cons_of_mem _ hc') hp'


/-- C1: applying a set of valid changes through `applyChanges` in any order
that respects the dependency (deps) relation yields an identical resulting
backend state (identical OpSet state, identical heads) and an identical
observable document: for any two permutations `l₁`, `l₂` of the incoming
changes that both satisfy `depsOK` over the already-applied history `A`,
both runs succeed and produce the same backend state. -/
theorem applyChanges_perm_deterministic (hfn : Change → Hash)
    (actor : String) (A l₁ l₂ : List Change)
    (hperm : List.Perm l₁ l₂)
    (hn₁ : (l₁.map hfn).Nodup)
    (hv : ValidSet hfn (A ++ l₁.filter (fun x => ¬ hfn x ∈ A.map hfn)))
    (hd₁ : depsOK hfn ∅ (A ++ l₁.filter (fun x => ¬ hfn x ∈ A.map hfn)))
    (hd₂ : depsOK hfn ∅ (A ++ l₂.filter (fun x => ¬ hfn x ∈ A.map hfn))) :
    ∃ d₁ d₂ : Doc,
      applyChangesD hfn ⟨actor, canonState hfn A⟩ l₁ = Except.ok d₁ ∧
      applyChangesD hfn ⟨actor, canonState hfn A⟩ l₂ = Except.ok d₂ ∧
      d₁.state = d₂.state ∧
      headsOf d₁.state = headsOf d₂.state ∧
      observableDoc d₁.state = observableDoc d₂.state := by
  have hr₁ := addChanges_canon hfn l₁ A hv hd₁ hn₁
  have hpf : List.Perm (A ++ l₁.filter (fun x => ¬ hfn x ∈ A.map hfn))
      (A ++ l₂.filter (fun x => ¬ hfn x ∈ A.map hfn)) :=
    List.Perm.append_left A (hperm.filter _)
  have hv₂ := ValidSet_perm hpf hv
  have hn₂ : (l₂.map hfn).Nodup := (hperm.map hfn).nodup_iff.mp hn₁
  have hr₂ := addChanges_canon hfn l₂ A hv₂ hd₂ hn₂
  have hcs := canonState_perm hpf hv.1 hv.2.1
  refine ⟨⟨actor, canonState hfn (A ++ l₁.filter (fun x => ¬ hfn x ∈ A.map hfn))⟩,
    ⟨actor, canonState hfn (A ++ l₂.filter (fun x => ¬ hfn x ∈ A.map hfn))⟩,
    ?_, ?_, hcs, congrArg headsOf hcs, congrArg observableDoc hcs⟩
  · have hD : applyChangesD hfn ⟨actor, canonState hfn A⟩ l₁
        = (addChanges hfn (canonState hfn A) l₁).map
            (fun s => (⟨actor, s⟩ : Doc)) := rfl
    rw [hD, hr₁]
    rfl
  · have hD : applyChangesD hfn ⟨actor, canonState hfn A⟩ l₂
        = (addChanges hfn (canonState hfn A) l₂).map
            (fun s => (⟨actor, s⟩ : Doc)) := rfl
    rw [hD, hr₂]
    rfl

/-- Witness for C1: the two orders of a concrete two-change history by two
different actors. -/
theorem applyChanges_perm_deterministic_witness :
    ∃ d₁ d₂ : Doc,
      applyChangesD exHash ⟨"me", canonState exHash []⟩
        [exChange "a" "x" 1, exChange "b" "y" 2] = Except.ok d₁ ∧
      applyChangesD exHash ⟨"me", canonState exHash []⟩
        [exChange "b" "y" 2, exChange "a" "x" 1] = Except.ok d₂ ∧
      d₁.state = d₂.state ∧
      headsOf d₁.state = headsOf d₂.state ∧
      observableDoc d₁.state = observableDoc d₂.state :=
  applyChanges_perm_deterministic exHash "me" []
    [exChange "a" "x" 1, exChange "b" "y" 2]
    [exChange "b" "y" 2, exChange "a" "x" 1]
    (by decide) (by decide) (by decide) (by decide) (by decide)

/-- C2: the save/load round trip restores the document state exactly:
for every reachable valid backend state (the canonical state of a valid,
dependency-closed change history), `load (save s)` succeeds and returns `s`,
i.e. `decode (encode S) = S`. -/
theorem load_save_roundtrip (hfn : Change → Hash) (l : List Change)
    (s : OpSetState) (hs : s = canonState hfn l)
    (hv : ValidSet hfn l) (hd : depsOK hfn ∅ l) :
    load hfn (save hfn s) = Except.ok s := by
  subst hs
  obtain ⟨hperm, hdG⟩ := getAllChanges_spec hv.1 hd
  have hvG : ValidSet hfn (getAllChanges hfn (canonState hfn l)) :=
    ValidSet_perm hperm.symm hv
  show addChanges hfn initState (getAllChanges hfn (canonState hfn l)) = _
  rw [addChanges_init_canon hfn _ hvG hdG,
    canonState_perm hperm hvG.1 hvG.2.1]

/-- Witness for C2 at a concrete two-change state. -/
theorem load_save_roundtrip_witness :
    load exHash (save exHash
      (canonState exHash [exChange "a" "x" 1, exChange "b" "y" 2]))
    = Except.ok (canonState exHash [exChange "a" "x" 1, exChange "b" "y" 2]) :=
  load_save_roundtrip exHash [exChange "a" "x" 1, exChange "b" "y" 2] _ rfl
    (by decide) (by decide)

/-- C5: merging a document with one of the same actor id fails with
"Cannot merge an actor with itself" when the two documents carry the same
actor id; with distinct actor ids it succeeds, returning the local document
updated with all changes of the remote document applied (every remote change
hash is present in the resulting state), duplicates ignored. -/
theorem merge_spec (hfn : Change → Hash) (A B : List Change) (la ra : String)
    (hvB : ValidSet hfn B) (hdB : depsOK hfn ∅ B)
    (hdA : depsOK hfn ∅ A)
    (hv : ValidSet hfn (A ++ B.filter (fun c => ¬ hfn c ∈ A.map hfn))) :
    (la = ra →
      merge hfn ⟨la, canonState hfn A⟩ ⟨ra, canonState hfn B⟩
        = Except.error "Cannot merge an actor with itself") ∧
    (la ≠ ra →
      ∃ s : OpSetState,
        merge hfn ⟨la, canonState hfn A⟩ ⟨ra, canonState hfn B⟩
          = Except.ok ⟨la, s⟩ ∧
        s = canonState hfn (A ++ B.filter (fun c => ¬ hfn c ∈ A.map hfn)) ∧
        ∀ c ∈ B, hfn c ∈ s.hashes) := by
  have hunf : merge hfn ⟨la, canonState hfn A⟩ ⟨ra, canonState hfn B⟩
      = if la = ra then Except.error "Cannot merge an actor with itself"
        else (addChanges hfn (canonState hfn A)
            (getAllChanges hfn (canonState hfn B))).map
          (fun s => (⟨la, s⟩ : Doc)) := rfl
  constructor
  · intro h
    rw [hunf, if_pos h]
  · intro h
    obtain ⟨hpermG, hdG⟩ := getAllChanges_spec hvB.1 hdB
    have hGf : List.Perm
        ((getAllChanges hfn (canonState hfn B)).filter
          (fun c => ¬ hfn c ∈ A.map hfn))
        (B.filter (fun c => ¬ hfn c ∈ A.map hfn)) :=
      hpermG.filter _
    have hpf : List.Perm (A ++ B.filter (fun c => ¬ hfn c ∈ A.map hfn))
        (A ++ (getAllChanges hfn (canonState hfn B)).filter
          (fun c => ¬ hfn c ∈ A.map hfn)) :=
      List.Perm.append_left A hGf.symm
    have hv' := ValidSet_perm hpf hv
    have hd' : depsOK hfn ∅
        (A ++ (getAllChanges hfn (canonState hfn B)).filter
          (fun c => ¬ hfn c ∈ A.map hfn)) := by
      refine @depsOK_append_intro hfn ∅ ((A.map hfn).toFinset) A
        ((getAllChanges hfn (canonState hfn B)).filter
          (fun c => ¬ hfn c ∈ A.map hfn)) hdA ?_ ?_
      · refine depsOK_filter hdG ?_ ?_
        · intro x hx
          exact absurd hx (by simp)
        · intro c _ hp
          exact List.mem_toFinset.mpr (not_not.mp (of_decide_eq_false hp))
      · intro x hx
        exact Or.inr (List.mem_toFinset.mp hx)
    have hnG : ((getAllChanges hfn (canonState hfn B)).map hfn).Nodup :=
      (hpermG.map hfn).nodup_iff.mpr hvB.1
    have hres := addChanges_canon hfn (getAllChanges hfn (canonState hfn B))
      A hv' hd' hnG
    have hcseq := canonState_perm hpf.symm hv'.1 hv'.2.1
    refine ⟨canonState hfn (A ++ B.filter (fun c => ¬ hfn c ∈ A.map hfn)),
      ?_, rfl, ?_⟩
    · rw [hunf, if_neg h, hres]
      show Except.ok (⟨la, _⟩ : Doc) = _
      rw [hcseq]
    · intro c hc
      apply List.mem_toFinset.mpr
      rw [List.map_append]
      by_cases hmem : hfn c ∈ A.map hfn
      · exact List.mem_append_left _ hmem
      · refine List.mem_append_right _ ?_
        apply List.mem_map_of_mem hfn
        refine List.mem_filter.mpr ⟨hc, ?_⟩
        exact decide_eq_true hmem

/-- Witness for C5: merging two concrete single-change documents with equal
and with distinct actor ids. -/
theorem merge_spec_witness :
    (("a" : String) = "b" →
      merge exHash ⟨"a", canonState exHash [exChange "a" "x" 1]⟩
          ⟨"b", canonState exHash [exChange "b" "y" 2]⟩
        = Except.error "Cannot merge an actor with itself") ∧
    (("a" : String) ≠ "b" →
      ∃ s : OpSetState,
        merge exHash ⟨"a", canonState exHash [exChange "a" "x" 1]⟩
            ⟨"b", canonState exHash [exChange "b" "y" 2]⟩
          = Except.ok ⟨"a", s⟩ ∧
        s = canonState exHash ([exChange "a" "x" 1] ++
          [exChange "b" "y" 2].filter
            (fun c => ¬ exHash c ∈ [exChange "a" "x" 1].map exHash)) ∧
        ∀ c ∈ [exChange "b" "y" 2], exHash c ∈ s.hashes) :=
  merge_spec exHash [exChange "a" "x" 1] [exChange "b" "y" 2] "a" "b"
    (by decide) (by decide) (by decide) (by decide)

end Automerge
